import Mathlib

set_option autoImplicit false

/-!
Verification development for the ROMCopyEngine repository.

The Go sources are embedded shallowly:
  * `shouldInclude`, `shouldIncludeDir`, `CopyFiles` from `copy_funcs`
    (the two-pass tree replicator);
  * `ExplodeFolder`, `moveItem`, `CopyFile`, `SearchAndReplace` from
    `file_operations`;
  * the rewrite-rule loop `processRewrites` from `ROMCopyEngine.go` and the
    config validation of `cli_parsing.ParseAndValidate`.

External collaborators (the `doublestar` glob library, Go `regexp`, the OS
filesystem) are modelled: the filesystem as finite association lists of
path/node pairs observed exactly through the operations the code performs
(`filepath.Walk` pre-order listings, `ReadDir`, `MkdirAll`, `Create`,
`Rename`, `Remove`), and the pattern matchers as executable functions over
the documented syntax.  All string processing is done on `List Char` so
that concrete runs reduce inside the kernel.
-/

namespace ROMCopyEngine

/-- Split a character list at every occurrence of `sep`
(the semantics of `strings.Split` with a one-character separator). -/
def splitOnChar (sep : Char) : List Char → List (List Char)
  | [] => [[]]
  | c :: cs =>
    let r := splitOnChar sep cs
    if c = sep then [] :: r
    else
      match r with
      | [] => [[c]]
      | h :: t => (c :: h) :: t

/-! ## Model of the doublestar glob matcher

`github.com/bmatcuk/doublestar/v4` matches forward-slash separated paths
against glob patterns with `*`, `?`, character classes and `**` (zero or
more whole path segments).  A malformed pattern (unclosed or empty
character class, trailing backslash) yields `ErrBadPattern` together with
`matched = false`.  The model parses the pattern into segments of tokens
(`none` = malformed) and matches segment-wise; brace alternation is outside
the modelled subset (braces are treated as literal characters, which no
claim below exercises). -/

/-- One token of a single glob path segment. -/
inductive GlobTok where
  | lit (c : Char)
  | anyChar
  | anyRun
  | cls (neg : Bool) (items : List (Char × Char))
  deriving DecidableEq, Repr

/-- One segment of a glob pattern: either a literal `**` segment or a token list. -/
inductive GlobSeg where
  | anySegs
  | toks (ts : List GlobTok)
  deriving DecidableEq, Repr

/-- Read one (possibly escaped) class member character, as Go's `getEsc`:
a `-` or `]` in member position is a bad pattern, `\\` escapes the next
character, a trailing `\\` is a bad pattern. -/
def getEsc : List Char → Option (Char × List Char)
  | [] => none
  | '-' :: _ => none
  | ']' :: _ => none
  | '\\' :: rest =>
    match rest with
    | [] => none
    | c :: rest2 => some (c, rest2)
  | c :: rest => some (c, rest)

/-- Parse the body of a `[...]` character class (after any negation marker):
a nonempty list of members or `lo-hi` ranges terminated by `]`. -/
def parseClassBody (fuel : Nat) (cs : List Char) (acc : List (Char × Char)) :
    Option (List (Char × Char) × List Char) :=
  match fuel, cs with
  | 0, _ => none
  | _, [] => none
  | fuel + 1, c :: rest =>
    if c = ']' ∧ acc ≠ [] then some (acc.reverse, rest)
    else
      match getEsc (c :: rest) with
      | none => none
      | some (lo, cs1) =>
        match cs1 with
        | '-' :: cs2 =>
          match getEsc cs2 with
          | none => none
          | some (hi, cs3) =>
            if hi < lo then none else parseClassBody fuel cs3 ((lo, hi) :: acc)
        | _ => parseClassBody fuel cs1 ((lo, lo) :: acc)

/-- Parse the characters of one glob segment into tokens. -/
def parseSegToks (fuel : Nat) (cs : List Char) : Option (List GlobTok) :=
  match fuel, cs with
  | _, [] => some []
  | 0, _ => none
  | fuel + 1, c :: rest =>
    match c with
    | '*' => (parseSegToks fuel rest).map (fun ts => GlobTok.anyRun :: ts)
    | '?' => (parseSegToks fuel rest).map (fun ts => GlobTok.anyChar :: ts)
    | '[' =>
      let negRest : Bool × List Char :=
        match rest with
        | '^' :: r => (true, r)
        | '!' :: r => (true, r)
        | _ => (false, rest)
      match parseClassBody (negRest.2.length + 1) negRest.2 [] with
      | none => none
      | some (items, rest2) =>
        (parseSegToks fuel rest2).map (fun ts => GlobTok.cls negRest.1 items :: ts)
    | '\\' =>
      match rest with
      | [] => none
      | d :: rest2 => (parseSegToks fuel rest2).map (fun ts => GlobTok.lit d :: ts)
    | _ => (parseSegToks fuel rest).map (fun ts => GlobTok.lit c :: ts)

/-- Parse a whole pattern: split on `/`, a bare `**` segment matches any
run of segments, every other segment is parsed into tokens. -/
def parsePatternL (pat : List Char) : Option (List GlobSeg) :=
  (splitOnChar '/' pat).mapM (fun s =>
    if s = ['*', '*'] then some GlobSeg.anySegs
    else (parseSegToks (s.length + 1) s).map GlobSeg.toks)

/-- Does character `c` fall in the (possibly negated) class? -/
def clsMatch (neg : Bool) (items : List (Char × Char)) (c : Char) : Bool :=
  let inside := items.any (fun p => decide (p.1 ≤ c) && decide (c ≤ p.2))
  if neg then !inside else inside

/-- Match a token list against the characters of one path segment.  Every
recursive call shrinks `ts.length + cs.length`, so the structural `fuel`
argument (always supplied as an over-approximation of that sum) never runs
out on the calls made below. -/
def matchToksF (fuel : Nat) (ts0 : List GlobTok) (cs0 : List Char) : Bool :=
  match fuel, ts0, cs0 with
  | _, [], [] => true
  | _, [], _ :: _ => false
  | 0, _ :: _, _ => false
  | fuel + 1, GlobTok.anyRun :: ts, [] => matchToksF fuel ts []
  | fuel + 1, GlobTok.anyRun :: ts, c :: cs =>
    matchToksF fuel ts (c :: cs) || matchToksF fuel (GlobTok.anyRun :: ts) cs
  | fuel + 1, GlobTok.lit d :: ts, c :: cs => (d = c) && matchToksF fuel ts cs
  | _, GlobTok.lit _ :: _, [] => false
  | fuel + 1, GlobTok.anyChar :: ts, _ :: cs => matchToksF fuel ts cs
  | _, GlobTok.anyChar :: _, [] => false
  | fuel + 1, GlobTok.cls n it :: ts, c :: cs => clsMatch n it c && matchToksF fuel ts cs
  | _, GlobTok.cls _ _ :: _, [] => false

/-- Match a token list against one path segment. -/
def matchToks (ts : List GlobTok) (cs : List Char) : Bool :=
  matchToksF (ts.length + cs.length + 1) ts cs

/-- Match a segment list against the segments of a path; `anySegs` consumes
zero or more whole segments.  Structural fuel, as in `matchToksF`. -/
def matchSegsF (fuel : Nat) (ps0 : List GlobSeg) (ss0 : List (List Char)) : Bool :=
  match fuel, ps0, ss0 with
  | _, [], [] => true
  | _, [], _ :: _ => false
  | 0, _ :: _, _ => false
  | fuel + 1, GlobSeg.anySegs :: ps, [] => matchSegsF fuel ps []
  | fuel + 1, GlobSeg.anySegs :: ps, s :: ss =>
    matchSegsF fuel ps (s :: ss) || matchSegsF fuel (GlobSeg.anySegs :: ps) ss
  | _, GlobSeg.toks _ :: _, [] => false
  | fuel + 1, GlobSeg.toks ts :: ps, s :: ss => matchToks ts s && matchSegsF fuel ps ss

/-- Match a segment list against the segments of a path. -/
def matchSegs (ps : List GlobSeg) (ss : List (List Char)) : Bool :=
  matchSegsF (ps.length + ss.length + 1) ps ss

/-- Model of `doublestar.Match pattern name`: `Except.error` stands for
`ErrBadPattern` (in which case Go also reports `matched = false`). -/
def dsMatchL (pat name : List Char) : Except Unit Bool :=
  match parsePatternL pat with
  | none => Except.error ()
  | some ps => Except.ok (matchSegs ps (splitOnChar '/' name))

/-- The value of `matched` in Go's `matched, _ := doublestar.Match(pattern, path)`:
the error is discarded, a malformed pattern behaves as matching nothing. -/
def matchOrFalse (pat name : List Char) : Bool :=
  match dsMatchL pat name with
  | Except.ok b => b
  | Except.error _ => false

/-- `filepath.Separator` of the modelled (slash-separated) platform. -/
def pathSeparator : Char := '/'

/-- Model of `filepath.ToSlash`: replace the separator by `/`. -/
def toSlashL (s : List Char) : List Char :=
  s.map (fun c => if c = pathSeparator then '/' else c)

/-! ## `copy_funcs.shouldInclude` -/

/-- Embedding of `copy_funcs.shouldInclude`:

    path = filepath.ToSlash(path)
    included := len(includes) == 0
    for pattern := range includes { if Match(ToSlash(pattern), path) { included = true; break } }
    if !included { return false }
    for pattern := range excludes { if Match(ToSlash(pattern), path) { return false } }
    return true
-/
def shouldInclude (path : List Char) (includes excludes : List (List Char)) : Bool :=
  let p := toSlashL path
  let included := includes.isEmpty || includes.any (fun pat => matchOrFalse (toSlashL pat) p)
  if !included then false
  else !(excludes.any (fun pat => matchOrFalse (toSlashL pat) p))

/-- Convenience wrapper taking `String`s (string literals reduce to their
character lists). -/
def shouldIncludeS (path : String) (includes excludes : List String) : Bool :=
  shouldInclude path.toList (includes.map String.toList) (excludes.map String.toList)

/-! ## Paths and the source tree

The Go code observes the source tree only through `filepath.Walk` (pre-order
listing of all entries with their `FileInfo`) and `os.ReadDir`.  The source
of one mapping is therefore embedded as its walk listing: a list of
(path relative to the mapping root, entry info) pairs, the root itself being
the empty path `[]` (Go's relative path `"."`). -/

/-- One path component. -/
abbrev Name := List Char

/-- A path relative to a mapping root, as a list of components; `[]` is the
root (`"."`). -/
abbrev Path := List Name

/-- The forward-slash joined form of a relative path, as produced by
`filepath.Rel` on the modelled platform. -/
def relChars : Path → List Char
  | [] => []
  | [n] => n
  | n :: rest => n ++ '/' :: relChars rest

/-- `FileInfo` content of a source walk entry. -/
inductive SrcInfo where
  | file (content : List Char) (mode : Nat)
  | dir (mode : Nat)
  deriving DecidableEq, Repr

/-- A source tree, observed as its pre-order walk listing. -/
abbrev Src := List (Path × SrcInfo)

/-- Is this entry a file (`!info.IsDir()`)? -/
def isFileInfo : SrcInfo → Bool
  | SrcInfo.file _ _ => true
  | SrcInfo.dir _ => false

/-! ## `copy_funcs.shouldIncludeDir` -/

/-- Embedding of `copy_funcs.shouldIncludeDir dirPath absSource includes excludes`:

* the mapping root (`relPath == "."`) is always included;
* `dirShouldBeIncluded`: the directory's own relative path put through
  `shouldInclude`;
* `hasMatchingFiles`: the inner `filepath.Walk(dirPath, ...)` looks for any
  *file* strictly below `dirPath` (at any depth) whose path relative to the
  mapping root satisfies `shouldInclude`;
* `isEmpty`: `len(os.ReadDir(dirPath)) == 0`, i.e. no *direct* child entry;
* result: `(isEmpty && dirShouldBeIncluded) || hasMatchingFiles`.
-/
def shouldIncludeDir (dirPath : Path) (src : Src) (includes excludes : List Name) : Bool :=
  if dirPath = [] then true
  else
    let dirShouldBeIncluded := shouldInclude (relChars dirPath) includes excludes
    let hasMatchingFiles := src.any (fun e =>
      dirPath.isPrefixOf e.1 && decide (e.1 ≠ dirPath) && isFileInfo e.2 &&
        shouldInclude (relChars e.1) includes excludes)
    let isEmpty := !(src.any (fun e =>
      dirPath.isPrefixOf e.1 && decide (e.1.length = dirPath.length + 1)))
    (isEmpty && dirShouldBeIncluded) || hasMatchingFiles

/-! ## The destination filesystem

The destination is a finite map from relative paths (under the mapping's
destination root) to nodes; the root directory itself always exists and is
not part of the map.  Lookup is by key; `Fs.set` replaces the first entry
with the given key, or appends. -/

/-- A destination filesystem node. -/
inductive FsNode where
  | file (content : List Char) (mode : Nat)
  | dir (mode : Nat)
  deriving DecidableEq, Repr

/-- A destination tree: association list from relative path to node. -/
abbrev Fs := List (Path × FsNode)

/-- First-match association lookup. -/
def Fs.lookup : Fs → Path → Option FsNode
  | [], _ => none
  | (q, n) :: rest, p => if q = p then some n else Fs.lookup rest p

/-- Replace the first entry with key `p`, or append a new one. -/
def Fs.set : Fs → Path → FsNode → Fs
  | [], p, v => [(p, v)]
  | (q, w) :: rest, p, v =>
    if q = p then (q, v) :: rest else (q, w) :: Fs.set rest p v

/-- Does `p` denote an existing directory (the root `[]` always does)? -/
def Fs.isDirAt (fs : Fs) (p : Path) : Bool :=
  match p with
  | [] => true
  | _ =>
    match Fs.lookup fs p with
    | some (FsNode.dir _) => true
    | _ => false

/-- Errors surfaced by the modelled filesystem mutations. -/
inductive FsErr where
  | notADir (p : Path)
  | createFailed (p : Path)
  deriving DecidableEq, Repr

/-- The nonempty prefixes of a path, shortest first. -/
def prefixesOf (p : Path) : List Path :=
  (List.range p.length).map (fun i => p.take (i + 1))

/-- Iterative core of `os.MkdirAll`: for each prefix (shortest first), an
existing directory is kept, an existing file is `ENOTDIR`, a missing entry
is created as a directory with the single permission argument. -/
def mkdirSteps (mode : Nat) : List Path → Fs → Except FsErr Fs
  | [], fs => Except.ok fs
  | q :: rest, fs =>
    match Fs.lookup fs q with
    | some (FsNode.dir _) => mkdirSteps mode rest fs
    | some (FsNode.file _ _) => Except.error (FsErr.notADir q)
    | none => mkdirSteps mode rest (Fs.set fs q (FsNode.dir mode))

/-- Model of `os.MkdirAll(destRoot/p, mode)`. -/
def mkdirAll (fs : Fs) (p : Path) (mode : Nat) : Except FsErr Fs :=
  mkdirSteps mode (prefixesOf p) fs

/-- Embedding of `file_operations.CopyFile` targeting destination path `p`
with the source file's bytes and mode: `os.Create` truncates/creates the
destination (failing when the parent is not an existing directory or the
path is a directory), the bytes are copied, and `os.Chmod` sets the source
mode. -/
def CopyFile (fs : Fs) (p : Path) (content : List Char) (srcMode : Nat) : Except FsErr Fs :=
  if Fs.isDirAt fs p.dropLast then
    match Fs.lookup fs p with
    | some (FsNode.dir _) => Except.error (FsErr.createFailed p)
    | _ => Except.ok (Fs.set fs p (FsNode.file content srcMode))
  else Except.error (FsErr.createFailed p)

/-! ## `copy_funcs.CopyFiles` (the two-pass replicator) -/

/-- Pass 1 of `CopyFiles`: walk the source; for every non-root directory
admitted by `shouldIncludeDir`, record `destDir -> info.Mode()` in the
`dirsToCreate` map. -/
def dirsToCreate (src : Src) (includes excludes : List Name) : List (Path × Nat) :=
  src.filterMap (fun e =>
    match e with
    | (p, SrcInfo.dir m) =>
      if p.isEmpty then none
      else if shouldIncludeDir p src includes excludes then some (p, m) else none
    | (_, SrcInfo.file _ _) => none)

/-- Lookup in the `dirsToCreate` record (a Go map keyed by path). -/
def lookupRec : List (Path × Nat) → Path → Option Nat
  | [], _ => none
  | (q, m) :: rest, p => if q = p then some m else lookupRec rest p

/-- The walk callback of pass 2 of `CopyFiles`, for one entry: skip the
root; create a directory only when it has a record entry (with the recorded
mode); for a file, skip it unless `shouldInclude` admits it, otherwise
ensure the parent directory exists when it is recorded and copy
bytes + mode.  With `dryRun` every mutation is replaced by a log call. -/
def pass2Step (rec : List (Path × Nat)) (includes excludes : List Name) (dryRun : Bool)
    (p : Path) (info : SrcInfo) (fs : Fs) : Except FsErr Fs :=
  if p = [] then Except.ok fs
  else
    match info with
    | SrcInfo.dir _ =>
      match lookupRec rec p with
      | some m => if dryRun then Except.ok fs else mkdirAll fs p m
      | none => Except.ok fs
    | SrcInfo.file content mode =>
      if shouldInclude (relChars p) includes excludes = false then Except.ok fs
      else if dryRun then Except.ok fs
      else
        match
          (match lookupRec rec p.dropLast with
           | some pm => mkdirAll fs p.dropLast pm
           | none => Except.ok fs) with
        | Except.error e => Except.error e
        | Except.ok fs1 => CopyFile fs1 p content mode

/-- Pass 2 of `CopyFiles`: run the callback over the walk listing; an error
returned from the callback aborts the walk. -/
def pass2 (rec : List (Path × Nat)) (includes excludes : List Name) (dryRun : Bool) :
    Src → Fs → Except FsErr Fs
  | [], fs => Except.ok fs
  | (p, info) :: rest, fs =>
    match pass2Step rec includes excludes dryRun p info fs with
    | Except.ok fs1 => pass2 rec includes excludes dryRun rest fs1
    | Except.error e => Except.error e

/-- Embedding of `copy_funcs.CopyFiles(sourcePath, destPath, copyInclude,
copyExclude, dryRun)`: pass 1 plans the directory record, pass 2 executes. -/
def CopyFiles (src : Src) (fs : Fs) (includes excludes : List Name) (dryRun : Bool) :
    Except FsErr Fs :=
  pass2 (dirsToCreate src includes excludes) includes excludes dryRun src fs

/-! ## Source well-formedness

Walk listings of a real directory tree have pairwise distinct paths, the
root is a directory, no file path is a prefix of another entry's path, and
every proper nonempty prefix of an entry's path occurs as a directory
entry.  These facts are packaged as an executable predicate. -/

/-- Pairwise distinct paths. -/
def nodupPaths : List Path → Bool
  | [] => true
  | p :: rest => !(rest.any (fun q => q = p)) && nodupPaths rest

/-- Does `src` contain a directory entry at `q`? -/
def isDirEntry (src : Src) (q : Path) : Bool :=
  src.any (fun e =>
    e.1 = q && (match e.2 with | SrcInfo.dir _ => true | SrcInfo.file _ _ => false))

/-- Well-formedness of a source walk listing. -/
def SrcWfB (src : Src) : Bool :=
  nodupPaths (src.map Prod.fst) &&
  src.all (fun e =>
    ((prefixesOf e.1.dropLast).all (fun q => isDirEntry src q)) &&
    (decide (e.1 ≠ []) || !(isFileInfo e.2)))

deriving instance DecidableEq for Except

/-! ### Concrete sanity checks (the `TestCopyFiles` tree) -/

/-- The source tree of `TestCopyFiles` in `copy_funcs_test.go`. -/
def testSrc : Src :=
  [([], SrcInfo.dir 493),
   (["empty".toList], SrcInfo.dir 493),
   (["file1.txt".toList], SrcInfo.file "file1".toList 420),
   (["file2.jpg".toList], SrcInfo.file "file2".toList 420),
   (["nested".toList], SrcInfo.dir 493),
   (["nested".toList, "empty_nested".toList], SrcInfo.dir 493),
   (["subdir1".toList], SrcInfo.dir 493),
   (["subdir1".toList, "file3.txt".toList], SrcInfo.file "file3".toList 420),
   (["subdir1".toList, "file4.jpg".toList], SrcInfo.file "file4".toList 420)]

/-! ## `file_operations.ExplodeFolder` and `moveItem`

`ExplodeFolder(destPath, explodeDir)` works entirely inside the destination
tree: both ends of every move live on the same device, so the `os.Rename`
branch of `moveItem` succeeds and the copy+delete fallback is never taken
in the model.  `os.ReadDir` returns entries sorted by name. -/

/-- Lexicographic order on names (byte order of `os.ReadDir`). -/
def nameLe (a b : Name) : Bool :=
  match a, b with
  | [], _ => true
  | _ :: _, [] => false
  | c :: cs, d :: ds => if c = d then nameLe cs ds else decide (c < d)

/-- Lexicographic order on paths. -/
def pathLe (p q : Path) : Bool :=
  match p, q with
  | [], _ => true
  | _ :: _, [] => false
  | a :: ps, b :: qs => if a = b then pathLe ps qs else nameLe a b

/-- Insertion sort (used to model the sorted listings the OS returns). -/
def insertByLe {α : Type} (le : α → α → Bool) (x : α) : List α → List α
  | [] => [x]
  | y :: rest => if le x y then x :: y :: rest else y :: insertByLe le x rest

/-- Sort by the given total boolean order. -/
def sortByLe {α : Type} (le : α → α → Bool) : List α → List α
  | [] => []
  | x :: rest => insertByLe le x (sortByLe le rest)

/-- Model of `os.ReadDir(destRoot/p)`: the names of the direct children of
`p`, sorted. -/
def childNamesOf (fs : Fs) (p : Path) : List Name :=
  sortByLe nameLe (fs.filterMap (fun e =>
    if decide (e.1.length = p.length + 1) && p.isPrefixOf e.1 then e.1.getLast? else none))

/-- Model of a successful `os.Rename(src, dst)` of a whole entry (file or
directory subtree): every path below `src` is re-rooted below `dst`. -/
def renameSubtree (fs : Fs) (src dst : Path) : Fs :=
  fs.map (fun e =>
    if src.isPrefixOf e.1 then (dst ++ e.1.drop src.length, e.2) else e)

/-- Model of `os.Remove` of a single (empty) entry. -/
def Fs.remove : Fs → Path → Fs
  | [], _ => []
  | (q, n) :: rest, p => if q = p then rest else (q, n) :: Fs.remove rest p

/-- Errors of `ExplodeFolder`. -/
inductive ExpErr where
  | notDir (name : Name)
  | conflict (name : Name)
  | removeFailed (name : Name)
  deriving DecidableEq, Repr

/-- The move loop of `ExplodeFolder`: for each direct child (in `ReadDir`
order), a pre-existing entry of the same name directly under the
destination root is a conflict that aborts the loop (no rollback),
otherwise the child is moved up one level via `moveItem` (a same-device
`os.Rename`). -/
def explodeMoves (folder : Name) : List Name → Fs → Option ExpErr × Fs
  | [], fs => (none, fs)
  | n :: ns, fs =>
    if (Fs.lookup fs [n]).isSome then (some (ExpErr.conflict n), fs)
    else explodeMoves folder ns (renameSubtree fs [folder, n] [n])

/-- Embedding of `file_operations.ExplodeFolder(destPath, explodeDir)`:
missing folder is `(false, nil)`; a non-directory is `(true, error)`;
otherwise every direct child is moved up (conflicts abort with the children
already moved left in place) and the emptied folder is removed
(`os.Remove` failing if it is somehow not empty). -/
def ExplodeFolder (fs : Fs) (explodeDir : Name) : (Bool × Option ExpErr) × Fs :=
  match Fs.lookup fs [explodeDir] with
  | none => ((false, none), fs)
  | some (FsNode.file _ _) => ((true, some (ExpErr.notDir explodeDir)), fs)
  | some (FsNode.dir _) =>
    let items := childNamesOf fs [explodeDir]
    match explodeMoves explodeDir items fs with
    | (some e, fs1) => ((true, some e), fs1)
    | (none, fs1) =>
      if (childNamesOf fs1 [explodeDir]).isEmpty then
        ((true, none), Fs.remove fs1 [explodeDir])
      else ((true, some (ExpErr.removeFailed explodeDir)), fs1)

/-! ## Model of Go `regexp` (the library collaborator of the rewrite engine)

Only compile-success/failure ordering matters for the claims below, but the
engine is executable: `rxCompile` parses a syntax subset (literals, `().|`,
classes, `. ? * +`, backslash escapes taken as literal next character) and
replacement substitutes every non-overlapping leftmost match, longest
preferred.  `rxCompile s = none` models `regexp.Compile` failing. -/

/-- Regular expression abstract syntax. -/
inductive Rx where
  | eps
  | chr (c : Char)
  | anyc
  | cls (neg : Bool) (items : List (Char × Char))
  | cat (a b : Rx)
  | alt (a b : Rx)
  | star (a : Rx)
  | plus (a : Rx)
  | opt (a : Rx)
  deriving DecidableEq, Repr

/-- Parse a regex character class body (after any `^`): members and
`lo-hi` ranges until a closing `]`; an empty class is invalid. -/
def rxParseClassBody (fuel : Nat) (cs : List Char) (acc : List (Char × Char)) :
    Option (List (Char × Char) × List Char) :=
  match fuel, cs with
  | 0, _ => none
  | _, [] => none
  | fuel + 1, c :: rest =>
    if c = ']' then (if acc = [] then none else some (acc.reverse, rest))
    else
      match (match c, rest with
             | '\\', [] => none
             | '\\', d :: rest2 => some (d, rest2)
             | _, _ => some (c, rest)) with
      | none => none
      | some (lo, cs1) =>
        match cs1 with
        | '-' :: ']' :: rest2 => some (((('-', '-') :: (lo, lo) :: acc).reverse), rest2)
        | '-' :: '\\' :: d :: cs2 =>
          if d < lo then none else rxParseClassBody fuel cs2 ((lo, d) :: acc)
        | '-' :: [] => none
        | '-' :: d :: cs2 =>
          if d < lo then none else rxParseClassBody fuel cs2 ((lo, d) :: acc)
        | _ => rxParseClassBody fuel cs1 ((lo, lo) :: acc)

mutual

/-- Alternation level of the regex parser. -/
def rxParseAlt : Nat → List Char → Option (Rx × List Char)
  | 0, _ => none
  | fuel + 1, cs =>
    match rxParseCat fuel cs with
    | none => none
    | some (a, rest) =>
      match rest with
      | '|' :: rest2 =>
        match rxParseAlt fuel rest2 with
        | none => none
        | some (b, rest3) => some (Rx.alt a b, rest3)
      | _ => some (a, rest)

/-- Concatenation level of the regex parser. -/
def rxParseCat : Nat → List Char → Option (Rx × List Char)
  | 0, _ => none
  | fuel + 1, cs =>
    match rxParseRep fuel cs with
    | none => some (Rx.eps, cs)
    | some (a, rest) =>
      match rxParseCat fuel rest with
      | none => none
      | some (b, rest2) => some (Rx.cat a b, rest2)

/-- Repetition level of the regex parser (one optional postfix operator;
a stacked operator is left unconsumed and rejected upstream). -/
def rxParseRep : Nat → List Char → Option (Rx × List Char)
  | 0, _ => none
  | fuel + 1, cs =>
    match rxParseAtom fuel cs with
    | none => none
    | some (a, rest) =>
      match rest with
      | '*' :: rest2 => some (Rx.star a, rest2)
      | '+' :: rest2 => some (Rx.plus a, rest2)
      | '?' :: rest2 => some (Rx.opt a, rest2)
      | _ => some (a, rest)

/-- Atom level of the regex parser. -/
def rxParseAtom : Nat → List Char → Option (Rx × List Char)
  | 0, _ => none
  | fuel + 1, cs =>
    match cs with
    | [] => none
    | '(' :: rest =>
      match rxParseAlt fuel rest with
      | none => none
      | some (a, rest2) =>
        match rest2 with
        | ')' :: rest3 => some (a, rest3)
        | _ => none
    | ')' :: _ => none
    | '|' :: _ => none
    | '*' :: _ => none
    | '+' :: _ => none
    | '?' :: _ => none
    | '[' :: rest =>
      match (match rest with
             | '^' :: r => rxParseClassBody (r.length + 1) r [] |>.map (fun x => (true, x))
             | _ => rxParseClassBody (rest.length + 1) rest [] |>.map (fun x => (false, x))) with
      | none => none
      | some (neg, items, rest2) => some (Rx.cls neg items, rest2)
    | '\\' :: rest =>
      match rest with
      | [] => none
      | d :: rest2 => some (Rx.chr d, rest2)
    | '.' :: rest => some (Rx.anyc, rest)
    | c :: rest => some (Rx.chr c, rest)

end

/-- Model of `regexp.Compile`: `none` is a compile failure. -/
def rxCompile (s : List Char) : Option Rx :=
  match rxParseAlt ((s.length + 1) * 8) s with
  | some (r, []) => some r
  | _ => none

/-- Lengths of the matches of `r` starting at the head of `s` (fuelled;
the fuel provided by the wrappers below always suffices since every
iteration of a star consumes at least one character). -/
def rxLensF : Nat → Rx → List Char → List Nat
  | 0, _, _ => []
  | fuel + 1, r, s =>
    match r with
    | Rx.eps => [0]
    | Rx.chr c => match s with | d :: _ => if d = c then [1] else [] | [] => []
    | Rx.anyc => match s with | _ :: _ => [1] | [] => []
    | Rx.cls neg items =>
      match s with | d :: _ => if clsMatch neg items d then [1] else [] | [] => []
    | Rx.cat a b =>
      (rxLensF fuel a s).flatMap (fun n => (rxLensF fuel b (s.drop n)).map (fun m => n + m))
    | Rx.alt a b => rxLensF fuel a s ++ rxLensF fuel b s
    | Rx.opt a => 0 :: rxLensF fuel a s
    | Rx.star a =>
      0 :: ((rxLensF fuel a s).filter (fun n => decide (0 < n))).flatMap (fun n =>
        (rxLensF fuel (Rx.star a) (s.drop n)).map (fun m => n + m))
    | Rx.plus a =>
      (rxLensF fuel a s).flatMap (fun n =>
        (rxLensF fuel (Rx.star a) (s.drop n)).map (fun m => n + m))

/-- Size of a regex term (for fuel bounds). -/
def rxSize : Rx → Nat
  | Rx.eps | Rx.chr _ | Rx.anyc | Rx.cls _ _ => 1
  | Rx.cat a b | Rx.alt a b => rxSize a + rxSize b + 1
  | Rx.star a | Rx.plus a | Rx.opt a => rxSize a + 1

/-- The length of the preferred (longest) match of `r` at the head of `s`. -/
def rxMaxLen (r : Rx) (s : List Char) : Option Nat :=
  (rxLensF ((rxSize r + 2) * (s.length + 2)) r s).max?

/-- Scan of `Regexp.ReplaceAll`: substitute every non-overlapping leftmost
match, advancing one character past an empty match. -/
def rxReplaceScan (r : Rx) (repl : List Char) : Nat → List Char → List Char
  | 0, s => s
  | _ + 1, [] =>
    match rxMaxLen r [] with
    | some _ => repl
    | none => []
  | fuel + 1, c :: rest =>
    match rxMaxLen r (c :: rest) with
    | some 0 => repl ++ c :: rxReplaceScan r repl fuel rest
    | some (n + 1) => repl ++ rxReplaceScan r repl fuel ((c :: rest).drop (n + 1))
    | none => c :: rxReplaceScan r repl fuel rest

/-- Model of `searchRegex.ReplaceAll(content, replaceTerm)`. -/
def rxReplaceAll (r : Rx) (repl s : List Char) : List Char :=
  rxReplaceScan r repl (s.length + 1) s

/-- Model of `strings.ReplaceAll` (fuelled scan; with an empty search term
the replacement is inserted at every boundary, as in Go). -/
def replaceAllLitF (search repl : List Char) : Nat → List Char → List Char
  | 0, s => s
  | _ + 1, [] => if search = [] then repl else []
  | fuel + 1, c :: rest =>
    match search with
    | [] => repl ++ c :: replaceAllLitF search repl fuel rest
    | _ =>
      if search.isPrefixOf (c :: rest) then
        repl ++ replaceAllLitF search repl fuel ((c :: rest).drop search.length)
      else c :: replaceAllLitF search repl fuel rest

/-- `strings.ReplaceAll search -> repl` over `s`. -/
def replaceAllLit (search repl s : List Char) : List Char :=
  replaceAllLitF search repl (s.length + 1) s

/-! ## `file_operations.SearchAndReplace` and `processRewrites` -/

/-- Errors of `SearchAndReplace`. -/
inductive SrErr where
  | badPattern (glob : List Char)
  | invalidRegex (pat : List Char)
  | readFailed (p : Path)
  deriving DecidableEq, Repr

/-- The per-file loop of `SearchAndReplace`: read, transform, write back
(an existing file keeps its mode under `os.WriteFile`).  The first failure
stops the loop; files already rewritten stay rewritten.  Reading a matched
directory fails. -/
def sarLoop (tr : List Char → List Char) : List Path → Fs → Option SrErr × Fs
  | [], fs => (none, fs)
  | p :: ps, fs =>
    match Fs.lookup fs p with
    | some (FsNode.file content m) =>
      sarLoop tr ps (Fs.set fs p (FsNode.file (tr content) m))
    | _ => (some (SrErr.readFailed p), fs)

/-- Embedding of `file_operations.SearchAndReplace(path, glob, searchTerm,
replaceTerm, isRegex)`:

1. `doublestar.FilepathGlob(path/glob)` — a malformed glob returns
   `(false, error)`; otherwise the matching entries, sorted;
2. no matches: `(false, nil)`;
3. with `isRegex`, the regex is compiled before any file is touched;
   a compile failure returns `(true, error)` with nothing mutated;
4. every matched file is rewritten in place, first failure aborts.
-/
def globMatchList (fs : Fs) (ps : List GlobSeg) : List Path :=
  sortByLe pathLe (fs.filterMap (fun e => if matchSegs ps e.1 then some e.1 else none))

/-- `SearchAndReplace` itself (see the contract above `globMatchList`). -/
def SearchAndReplace (fs : Fs) (glob search repl : List Char) (isRegex : Bool) :
    (Bool × Option SrErr) × Fs :=
  match parsePatternL glob with
  | none => ((false, some (SrErr.badPattern glob)), fs)
  | some ps =>
    let matchList := globMatchList fs ps
    if matchList.isEmpty then ((false, none), fs)
    else
      if isRegex then
        match rxCompile search with
        | none => ((true, some (SrErr.invalidRegex search)), fs)
        | some r =>
          match sarLoop (fun content => rxReplaceAll r repl content) matchList fs with
          | (e?, fs1) => ((true, e?), fs1)
      else
        match sarLoop (fun content => replaceAllLit search repl content) matchList fs with
        | (e?, fs1) => ((true, e?), fs1)

/-- A rewrite rule (`cli_parsing.RewriteRule`). -/
structure RewriteRule where
  fileGlob : List Char
  searchPattern : List Char
  replacePattern : List Char
  deriving DecidableEq, Repr

/-- Embedding of the rule loop of `processRewrites` in `ROMCopyEngine.go`:
in dry-run mode every rule is only logged; otherwise
`found, err := SearchAndReplace(...)`, a `!found` result is logged and
skipped (this check comes first, so an error paired with `found == false`
is discarded), and an error with `found == true` aborts. -/
def processRewrites (isRegex dryRun : Bool) : List RewriteRule → Fs → Except SrErr Fs
  | [], fs => Except.ok fs
  | r :: rest, fs =>
    if dryRun then processRewrites isRegex dryRun rest fs
    else
      match SearchAndReplace fs r.fileGlob r.searchPattern r.replacePattern isRegex with
      | ((false, _), fs1) => processRewrites isRegex dryRun rest fs1
      | ((true, some e), _) => Except.error e
      | ((true, none), fs1) => processRewrites isRegex dryRun rest fs1

/-! ## `cli_parsing.ParseAndValidate` (the relevant validations) -/

/-- A source-to-destination directory mapping. -/
structure DirMapping where
  source : List Char
  destination : List Char
  deriving DecidableEq, Repr

/-- An exact-name rename pair. -/
structure NameMapping where
  oldName : List Char
  newName : List Char
  deriving DecidableEq, Repr

/-- The parsed configuration (the fields the modelled validations build). -/
structure Config where
  mappings : List DirMapping
  renames : List NameMapping
  fileRewrites : List RewriteRule
  deriving DecidableEq, Repr

/-- Configuration errors of `ParseAndValidate`. -/
inductive CfgErr where
  | missingSourceDir (p : List Char)
  | badMappingFormat (m : List Char)
  | missingMappingDir (p : List Char)
  | badRenameFormat (m : List Char)
  | badRewriteFormat (m : List Char)
  | invalidRegex (pat : List Char)
  | noMappings
  deriving DecidableEq, Repr

/-- The CLI flags consumed by the modelled part of `ParseAndValidate`. -/
structure CLIFlags where
  sourceDir : List Char
  mappings : List (List Char)
  renames : List (List Char)
  rewrites : List (List Char)
  rewritesAreRegex : Bool
  deriving DecidableEq, Repr

/-- The mapping loop: each `source:destination` string is split on `:`
(exactly two parts) and `sourceDir/source` must exist as a directory. -/
def parseMappings (sourceDir : List Char) (existing : List (List Char)) :
    List (List Char) → Except CfgErr (List DirMapping)
  | [] => Except.ok []
  | m :: rest =>
    match splitOnChar ':' m with
    | [s, d] =>
      if existing.contains (sourceDir ++ '/' :: s) then
        match parseMappings sourceDir existing rest with
        | Except.ok ms => Except.ok ({ source := s, destination := d } :: ms)
        | Except.error e => Except.error e
      else Except.error (CfgErr.missingMappingDir (sourceDir ++ '/' :: s))
    | _ => Except.error (CfgErr.badMappingFormat m)

/-- The rename loop: each `old:new` string is split on `:` into two parts. -/
def parseRenames : List (List Char) → Except CfgErr (List NameMapping)
  | [] => Except.ok []
  | m :: rest =>
    match splitOnChar ':' m with
    | [o, n] =>
      match parseRenames rest with
      | Except.ok ms => Except.ok ({ oldName := o, newName := n } :: ms)
      | Except.error e => Except.error e
    | _ => Except.error (CfgErr.badRenameFormat m)

/-- The rewrite loop: each `glob:search:replace` string is split on `:`
into three parts; with `rewritesAreRegex` the search pattern must compile. -/
def parseRewrites (areRegex : Bool) : List (List Char) → Except CfgErr (List RewriteRule)
  | [] => Except.ok []
  | rw :: rest =>
    match splitOnChar ':' rw with
    | [g, s, r] =>
      if areRegex ∧ rxCompile s = none then Except.error (CfgErr.invalidRegex s)
      else
        match parseRewrites areRegex rest with
        | Except.ok rs =>
          Except.ok ({ fileGlob := g, searchPattern := s, replacePattern := r } :: rs)
        | Except.error e => Except.error e
    | _ => Except.error (CfgErr.badRewriteFormat rw)

/-- Embedding of the validations of `cli_parsing.ParseAndValidate`: the
source directory and every mapping's source subdirectory must exist
(`existing` lists the directories present on disk), mapping / rename /
rewrite strings are format-checked, regex search patterns are compiled
eagerly when `rewritesAreRegex` is set, and at least one mapping is
required.  All of this happens before any filesystem mutation (the
function only reads). -/
def ParseAndValidate (cli : CLIFlags) (existing : List (List Char)) : Except CfgErr Config :=
  if existing.contains cli.sourceDir = false then
    Except.error (CfgErr.missingSourceDir cli.sourceDir)
  else
    match parseMappings cli.sourceDir existing cli.mappings with
    | Except.error e => Except.error e
    | Except.ok ms =>
      match parseRenames cli.renames with
      | Except.error e => Except.error e
      | Except.ok rs =>
        match parseRewrites cli.rewritesAreRegex cli.rewrites with
        | Except.error e => Except.error e
        | Except.ok rws =>
          if ms.isEmpty then Except.error CfgErr.noMappings
          else Except.ok { mappings := ms, renames := rs, fileRewrites := rws }

/-! ## Specification-side predicates used to state the claims -/

/-- Directory admission as the specification wording of claim C3 has it:
a non-root directory is admitted iff EITHER it has no descendant files and
its own relative path passes `shouldInclude`, OR some descendant file (at
any depth) passes `shouldInclude`; the root is always admitted. -/
def admitDirSpec (dirPath : Path) (src : Src) (includes excludes : List Name) : Bool :=
  if dirPath = [] then true
  else
    let descFiles := src.filter (fun e =>
      dirPath.isPrefixOf e.1 && decide (e.1 ≠ dirPath) && isFileInfo e.2)
    (descFiles.isEmpty && shouldInclude (relChars dirPath) includes excludes) ||
      descFiles.any (fun e => shouldInclude (relChars e.1) includes excludes)

/-- Does `src` have a direct child entry inside directory `dirPath`
(the code's `len(os.ReadDir(dirPath)) > 0`)? -/
def hasDirectEntryB (src : Src) (dirPath : Path) : Bool :=
  src.any (fun e => dirPath.isPrefixOf e.1 && decide (e.1.length = dirPath.length + 1))

/-- Pass 2 copies a file to `q` while processing `l`: some admitted
non-root file entry of `l` has path `q`. -/
def copiesAt (includes excludes : List Name) (l : Src) (q : Path) : Prop :=
  ∃ c m, (q, SrcInfo.file c m) ∈ l ∧ q ≠ [] ∧
    shouldInclude (relChars q) includes excludes = true

/-- The pass-2 callback on entry `(p, info)` copies a file onto `q`. -/
def stepCopies (includes excludes : List Name) (p : Path) (info : SrcInfo) (q : Path) : Prop :=
  q = p ∧ p ≠ [] ∧ (∃ c m, info = SrcInfo.file c m) ∧
    shouldInclude (relChars p) includes excludes = true

/-- `q` can be created by a `MkdirAll` of pass 2: it is a nonempty prefix
of some recorded directory. -/
def touchedByRec (rec : List (Path × Nat)) (q : Path) : Prop :=
  q ≠ [] ∧ ∃ d, (lookupRec rec d).isSome = true ∧ q.isPrefixOf d = true

/-- `q` is a nonempty prefix of (i.e. equals, or is an ancestor directory
of) some non-root source directory admitted by `shouldIncludeDir`. -/
def inAdmittedDirClosure (src : Src) (includes excludes : List Name) (q : Path) : Prop :=
  q ≠ [] ∧ ∃ d m, (d, SrcInfo.dir m) ∈ src ∧ d ≠ [] ∧
    shouldIncludeDir d src includes excludes = true ∧ q.isPrefixOf d = true

/-- The source tree of the counterexamples: a directory `nested` whose only
entry is the empty directory `nested/empty_nested` (no descendant files). -/
def nestedSrc : Src :=
  [([], SrcInfo.dir 493),
   (["nested".toList], SrcInfo.dir 493),
   (["nested".toList, "empty_nested".toList], SrcInfo.dir 493)]

/-- The destination tree of spec Scenario D: `mario.sfc` already exists at
the root and `sub/mario.sfc` is about to collide with it. -/
def marioFs : Fs :=
  [(["mario.sfc".toList], FsNode.file "old".toList 420),
   (["sub".toList], FsNode.dir 493),
   (["sub".toList, "mario.sfc".toList], FsNode.file "new".toList 420)]

/-- The destination produced by copying `testSrc` with no patterns into an
empty destination (used by the witnesses below). -/
def testDestAll : Fs :=
  [(["empty".toList], FsNode.dir 493),
   (["file1.txt".toList], FsNode.file "file1".toList 420),
   (["file2.jpg".toList], FsNode.file "file2".toList 420),
   (["nested".toList], FsNode.dir 493),
   (["nested".toList, "empty_nested".toList], FsNode.dir 493),
   (["subdir1".toList], FsNode.dir 493),
   (["subdir1".toList, "file3.txt".toList], FsNode.file "file3".toList 420),
   (["subdir1".toList, "file4.jpg".toList], FsNode.file "file4".toList 420)]

/-- The destination produced by copying `testSrc` with include
`**/*.txt` into an empty destination (used by the witnesses below). -/
def testDestTxt : Fs :=
  [(["file1.txt".toList], FsNode.file "file1".toList 420),
   (["subdir1".toList], FsNode.dir 493),
   (["subdir1".toList, "file3.txt".toList], FsNode.file "file3".toList 420)]

/-! ## Concrete sanity checks -/

example : SrcWfB testSrc = true := by decide

example : shouldIncludeDir ["empty".toList] testSrc [] [] = true := by decide
example : shouldIncludeDir ["nested".toList] testSrc [] [] = false := by decide
example : shouldIncludeDir ["subdir1".toList] testSrc ["**/*.txt".toList] [] = true := by decide
example : shouldIncludeDir ["empty".toList] testSrc ["**/*.txt".toList] [] = false := by decide
example :
    shouldIncludeDir ["empty".toList] testSrc ["**/empty/**".toList, "**/empty".toList] [] = true := by
  decide

example :
    lookupRec (dirsToCreate testSrc [] []) ["nested".toList] = none := by decide
example :
    lookupRec (dirsToCreate testSrc [] []) ["nested".toList, "empty_nested".toList] = some 493 := by
  decide

example :
    (CopyFiles testSrc [] [] [] true) = Except.ok [] := by decide

example :
    (CopyFiles testSrc [] ["**/*.txt".toList] [] false) =
      Except.ok
        [(["file1.txt".toList], FsNode.file "file1".toList 420),
         (["subdir1".toList], FsNode.dir 493),
         (["subdir1".toList, "file3.txt".toList], FsNode.file "file3".toList 420)] := by
  decide


/-! ### Concrete sanity checks for the post-copy operations -/

example :
    ExplodeFolder
      [(["mario.sfc".toList], FsNode.file "old".toList 420),
       (["sub".toList], FsNode.dir 493),
       (["sub".toList, "mario.sfc".toList], FsNode.file "new".toList 420)]
      "sub".toList =
    ((true, some (ExpErr.conflict "mario.sfc".toList)),
      [(["mario.sfc".toList], FsNode.file "old".toList 420),
       (["sub".toList], FsNode.dir 493),
       (["sub".toList, "mario.sfc".toList], FsNode.file "new".toList 420)]) := by
  decide

example :
    ExplodeFolder
      [(["multidisk".toList], FsNode.dir 493),
       (["multidisk".toList, "game.m3u".toList], FsNode.file "d1".toList 420)]
      "multidisk".toList =
    ((true, none), [(["game.m3u".toList], FsNode.file "d1".toList 420)]) := by
  decide

example :
    ExplodeFolder [] "multidisk".toList = ((false, none), []) := by decide

example : rxCompile "[invalid".toList = none := by decide
example : (rxCompile "ab".toList).isSome = true := by decide
example : (rxCompile "a*b".toList).isSome = true := by decide
example : rxCompile "*".toList = none := by decide
example :
    replaceAllLit "./multidisk/".toList "./".toList "./multidisk/disk1.bin".toList =
      "./disk1.bin".toList := by decide

example :
    SearchAndReplace [] "*.m3u".toList "[invalid".toList "x".toList true =
      ((false, none), []) := by decide

example :
    SearchAndReplace
      [(["a.m3u".toList], FsNode.file "y".toList 420)]
      "*.m3u".toList "[invalid".toList "x".toList true =
      ((true, some (SrErr.invalidRegex "[invalid".toList)),
        [(["a.m3u".toList], FsNode.file "y".toList 420)]) := by decide

example : shouldIncludeS "file.txt" [] [] = true := by decide
example : shouldIncludeS "file.txt" ["*.txt"] [] = true := by decide
example : shouldIncludeS "file.txt" ["*.jpg"] [] = false := by decide
example : shouldIncludeS "file.txt" [] ["*.txt"] = false := by decide
example : shouldIncludeS "file.txt" ["*.txt"] ["file.*"] = false := by decide
example : shouldIncludeS "dir/subdir/file.txt" ["**/*.txt"] [] = true := by decide
example : shouldIncludeS "dir/subdir/file.txt" ["dir/**"] [] = true := by decide
example : shouldIncludeS "folder/subfolder/test.txt" ["*/*.txt", "*/subfolder/*.txt"] [] = true := by decide
example : shouldIncludeS "nested" ["**/nested/**"] [] = true := by decide
example : shouldIncludeS "x" ["["] [] = false := by decide
example : parsePatternL "[".toList = none := by decide
example : matchOrFalse "*.txt".toList "file.txt".toList = true := by decide


/-! ## Basic lemmas about the filesystem model -/

theorem lookup_set : ∀ (fs : Fs) (p : Path) (v : FsNode) (q : Path),
    Fs.lookup (Fs.set fs p v) q = if p = q then some v else Fs.lookup fs q := by
  intro fs p v
  induction fs with
  | nil =>
    intro q
    by_cases h : p = q <;> simp [Fs.set, Fs.lookup, h]
  | cons e rest ih =>
    intro q
    obtain ⟨k, w⟩ := e
    simp only [Fs.set]
    by_cases hkp : k = p
    · subst hkp
      simp only [if_pos rfl, Fs.lookup]
      by_cases hkq : k = q <;> simp [hkq]
    · simp only [if_neg hkp, Fs.lookup]
      by_cases hkq : k = q
      · subst hkq
        have hpq : ¬ p = k := fun h => hkp h.symm
        simp [hpq]
      · simp [hkq, ih q]

theorem set_id : ∀ (fs : Fs) (p : Path) (v : FsNode),
    Fs.lookup fs p = some v → Fs.set fs p v = fs := by
  intro fs p v
  induction fs with
  | nil => intro h; simp [Fs.lookup] at h
  | cons e rest ih =>
    obtain ⟨k, w⟩ := e
    intro h
    simp only [Fs.lookup] at h
    simp only [Fs.set]
    by_cases hkp : k = p
    · rw [if_pos hkp] at h
      rw [if_pos hkp]
      injection h with h2
      rw [h2]
    · rw [if_neg hkp] at h
      rw [if_neg hkp, ih h]

theorem mkdirSteps_ok_pres : ∀ (l : List Path) (mode : Nat) (fs fs1 : Fs),
    mkdirSteps mode l fs = Except.ok fs1 →
    ∀ q v, Fs.lookup fs q = some v → Fs.lookup fs1 q = some v := by
  intro l
  induction l with
  | nil =>
    intro mode fs fs1 h q v hv
    simp only [mkdirSteps] at h
    injection h with h2
    rw [← h2]; exact hv
  | cons d rest ih =>
    intro mode fs fs1 h q v hv
    simp only [mkdirSteps] at h
    cases hd : Fs.lookup fs d with
    | none =>
      rw [hd] at h
      refine ih mode _ fs1 h q v ?_
      rw [lookup_set]
      by_cases hdq : d = q
      · subst hdq; rw [hd] at hv; cases hv
      · rw [if_neg hdq]; exact hv
    | some node =>
      cases node with
      | dir m2 => rw [hd] at h; exact ih mode fs fs1 h q v hv
      | file c m2 => rw [hd] at h; cases h

theorem mkdirSteps_ok_frame : ∀ (l : List Path) (mode : Nat) (fs fs1 : Fs),
    mkdirSteps mode l fs = Except.ok fs1 →
    ∀ q, q ∉ l → Fs.lookup fs1 q = Fs.lookup fs q := by
  intro l
  induction l with
  | nil =>
    intro mode fs fs1 h q _
    simp only [mkdirSteps] at h
    injection h with h2
    rw [h2]
  | cons d rest ih =>
    intro mode fs fs1 h q hq
    have hqd : q ≠ d := fun hc => hq (by rw [hc]; exact List.mem_cons_self d rest)
    have hqrest : q ∉ rest := fun hc => hq (List.mem_cons_of_mem d hc)
    simp only [mkdirSteps] at h
    cases hd : Fs.lookup fs d with
    | none =>
      rw [hd] at h
      have := ih mode _ fs1 h q hqrest
      rw [this, lookup_set, if_neg (fun hc => hqd hc.symm)]
    | some node =>
      cases node with
      | dir m2 => rw [hd] at h; exact ih mode fs fs1 h q hqrest
      | file c m2 => rw [hd] at h; cases h

theorem mkdirSteps_ok_mem : ∀ (l : List Path) (mode : Nat) (fs fs1 : Fs),
    mkdirSteps mode l fs = Except.ok fs1 →
    ∀ q, q ∈ l → ∃ m2, Fs.lookup fs1 q = some (FsNode.dir m2) := by
  intro l
  induction l with
  | nil => intro mode fs fs1 _ q hq; cases hq
  | cons d rest ih =>
    intro mode fs fs1 h q hq
    simp only [mkdirSteps] at h
    rcases List.mem_cons.mp hq with hqd | hqrest
    · subst hqd
      cases hd : Fs.lookup fs q with
      | none =>
        rw [hd] at h
        refine ⟨mode, mkdirSteps_ok_pres rest mode _ fs1 h q _ ?_⟩
        rw [lookup_set, if_pos rfl]
      | some node =>
        cases node with
        | dir m2 =>
          rw [hd] at h
          exact ⟨m2, mkdirSteps_ok_pres rest mode fs fs1 h q _ hd⟩
        | file c m2 => rw [hd] at h; cases h
    · cases hd : Fs.lookup fs d with
      | none => rw [hd] at h; exact ih mode _ fs1 h q hqrest
      | some node =>
        cases node with
        | dir m2 => rw [hd] at h; exact ih mode fs fs1 h q hqrest
        | file c m2 => rw [hd] at h; cases h

theorem mkdirSteps_noop : ∀ (l : List Path) (mode : Nat) (fs : Fs),
    (∀ q, q ∈ l → ∃ m2, Fs.lookup fs q = some (FsNode.dir m2)) →
    mkdirSteps mode l fs = Except.ok fs := by
  intro l
  induction l with
  | nil => intro mode fs _; rfl
  | cons d rest ih =>
    intro mode fs h
    obtain ⟨m2, hm2⟩ := h d (List.mem_cons_self d rest)
    simp only [mkdirSteps, hm2]
    exact ih mode fs (fun q hq => h q (List.mem_cons_of_mem d hq))

theorem mem_prefixesOf {q p : Path} :
    q ∈ prefixesOf p ↔ q ≠ [] ∧ q.isPrefixOf p = true := by
  simp only [prefixesOf, List.mem_map, List.mem_range]
  constructor
  · rintro ⟨i, hi, rfl⟩
    constructor
    · have hlen : (p.take (i + 1)).length = i + 1 := by
        rw [List.length_take]; omega
      intro h
      rw [h] at hlen
      simp at hlen
    · rw [ List.isPrefixOf_iff_prefix]
      exact List.take_prefix _ _
  · rintro ⟨hne, hpre⟩
    rw [ List.isPrefixOf_iff_prefix] at hpre
    have hlen : q.length ≤ p.length := hpre.length_le
    have hq : 0 < q.length := List.length_pos.mpr hne
    refine ⟨q.length - 1, by omega, ?_⟩
    have htake : q = p.take q.length := List.prefix_iff_eq_take.mp hpre
    have : q.length - 1 + 1 = q.length := by omega
    rw [this, ← htake]

theorem CopyFile_ok {fs : Fs} {p : Path} {content : List Char} {m : Nat} {fs1 : Fs}
    (h : CopyFile fs p content m = Except.ok fs1) :
    fs1 = Fs.set fs p (FsNode.file content m) ∧ Fs.isDirAt fs p.dropLast = true ∧
      ∀ dm, ¬ Fs.lookup fs p = some (FsNode.dir dm) := by
  unfold CopyFile at h
  by_cases hd : Fs.isDirAt fs p.dropLast
  · rw [if_pos hd] at h
    cases hl : Fs.lookup fs p with
    | none =>
      rw [hl] at h
      injection h with h2
      exact ⟨h2.symm, hd, fun dm hc => by simp [hl] at hc⟩
    | some node =>
      cases node with
      | dir dm => rw [hl] at h; cases h
      | file c2 m2 =>
        rw [hl] at h
        injection h with h2
        refine ⟨h2.symm, hd, fun dm hc => ?_⟩
        simp [hl] at hc
  · rw [if_neg hd] at h
    cases h

/-! ## Lemmas about the record and the pass-2 callback -/

theorem lookupRec_mem : ∀ (rec : List (Path × Nat)) (p : Path) (m : Nat),
    lookupRec rec p = some m → (p, m) ∈ rec := by
  intro rec
  induction rec with
  | nil => intro p m h; cases h
  | cons e rest ih =>
    intro p m h
    obtain ⟨k, km⟩ := e
    simp only [lookupRec] at h
    by_cases hkp : k = p
    · rw [if_pos hkp] at h
      injection h with h2
      subst hkp; subst h2
      exact List.mem_cons_self _ _
    · rw [if_neg hkp] at h
      exact List.mem_cons_of_mem _ (ih p m h)

theorem lookupRec_isSome_of_mem : ∀ (rec : List (Path × Nat)) (p : Path) (m : Nat),
    (p, m) ∈ rec → (lookupRec rec p).isSome = true := by
  intro rec
  induction rec with
  | nil => intro p m h; cases h
  | cons e rest ih =>
    intro p m h
    obtain ⟨k, km⟩ := e
    simp only [lookupRec]
    by_cases hkp : k = p
    · rw [if_pos hkp]; rfl
    · rw [if_neg hkp]
      rcases List.mem_cons.mp h with heq | hrest
      · injection heq with h1 h2; exact absurd h1.symm hkp
      · exact ih p m hrest

theorem dirsToCreate_mem (src : Src) (I E : List Name) (p : Path) (m : Nat) :
    (p, m) ∈ dirsToCreate src I E ↔
      ((p, SrcInfo.dir m) ∈ src ∧ p ≠ [] ∧ shouldIncludeDir p src I E = true) := by
  simp only [dirsToCreate, List.mem_filterMap]
  constructor
  · rintro ⟨⟨q, info⟩, hmem, hf⟩
    cases info with
    | file c m2 => simp at hf
    | dir m2 =>
      simp only at hf
      split at hf
      · cases hf
      · split at hf
        · next hq hinc =>
          injection hf with h1
          injection h1 with hq1 hm1
          subst hq1; subst hm1
          refine ⟨hmem, ?_, hinc⟩
          intro hc
          rw [hc] at hq
          exact hq rfl
        · cases hf
  · rintro ⟨hmem, hne, hinc⟩
    refine ⟨(p, SrcInfo.dir m), hmem, ?_⟩
    have hq : p.isEmpty = false := by
      cases p with
      | nil => exact absurd rfl hne
      | cons a t => rfl
    simp only [hq, Bool.false_eq_true, if_false, hinc, if_true]

theorem pass2Step_ok_cases {rec : List (Path × Nat)} {I E : List Name} {p : Path}
    {info : SrcInfo} {fs fs1 : Fs}
    (h : pass2Step rec I E false p info fs = Except.ok fs1) :
    (fs1 = fs ∧ (p = [] ∨ (∃ dm, info = SrcInfo.dir dm ∧ lookupRec rec p = none) ∨
        (∃ c m, info = SrcInfo.file c m ∧ shouldInclude (relChars p) I E = false)))
    ∨ (∃ dm m, p ≠ [] ∧ info = SrcInfo.dir dm ∧ lookupRec rec p = some m ∧
        mkdirSteps m (prefixesOf p) fs = Except.ok fs1)
    ∨ (∃ c m fsi, p ≠ [] ∧ info = SrcInfo.file c m ∧
        shouldInclude (relChars p) I E = true ∧
        ((lookupRec rec p.dropLast = none ∧ fsi = fs) ∨
          (∃ pm, lookupRec rec p.dropLast = some pm ∧
            mkdirSteps pm (prefixesOf p.dropLast) fs = Except.ok fsi)) ∧
        CopyFile fsi p c m = Except.ok fs1) := by
  by_cases hp : p = []
  · unfold pass2Step at h
    rw [if_pos hp] at h
    injection h with h2
    exact Or.inl ⟨h2.symm, Or.inl hp⟩
  · cases info with
    | dir dm =>
      have h2 : (match lookupRec rec p with
          | some m => if false = true then Except.ok fs else mkdirAll fs p m
          | none => Except.ok (ε := FsErr) fs) = Except.ok fs1 := by
        unfold pass2Step at h
        rw [if_neg hp] at h
        exact h
      cases hrec : lookupRec rec p with
      | some m =>
        rw [hrec] at h2
        have h3 : mkdirAll fs p m = Except.ok fs1 := h2
        exact Or.inr (Or.inl ⟨dm, m, hp, rfl, rfl, h3⟩)
      | none =>
        rw [hrec] at h2
        have h3 : Except.ok (ε := FsErr) fs = Except.ok fs1 := h2
        injection h3 with h4
        exact Or.inl ⟨h4.symm, Or.inr (Or.inl ⟨dm, rfl, rfl⟩)⟩
    | file c m =>
      have h2 : (if shouldInclude (relChars p) I E = false then Except.ok fs
          else if false = true then Except.ok fs
          else match (match lookupRec rec p.dropLast with
                      | some pm => mkdirAll fs p.dropLast pm
                      | none => Except.ok fs) with
               | Except.error e => Except.error e
               | Except.ok fsi => CopyFile fsi p c m) = Except.ok fs1 := by
        unfold pass2Step at h
        rw [if_neg hp] at h
        exact h
      by_cases hinc : shouldInclude (relChars p) I E = false
      · rw [if_pos hinc] at h2
        injection h2 with h3
        exact Or.inl ⟨h3.symm, Or.inr (Or.inr ⟨c, m, rfl, hinc⟩)⟩
      · rw [if_neg hinc] at h2
        have hinc2 : shouldInclude (relChars p) I E = true := by
          cases hv : shouldInclude (relChars p) I E with
          | false => exact absurd hv hinc
          | true => rfl
        cases hrec : lookupRec rec p.dropLast with
        | some pm =>
          rw [hrec] at h2
          have h3 : (match mkdirAll fs p.dropLast pm with
              | Except.error e => Except.error e
              | Except.ok fsi => CopyFile fsi p c m) = Except.ok fs1 := h2
          cases hmk : mkdirAll fs p.dropLast pm with
          | error er => rw [hmk] at h3; cases h3
          | ok fsi =>
            rw [hmk] at h3
            exact Or.inr (Or.inr ⟨c, m, fsi, hp, rfl, hinc2,
              Or.inr ⟨pm, rfl, hmk⟩, h3⟩)
        | none =>
          rw [hrec] at h2
          have h3 : CopyFile fs p c m = Except.ok fs1 := h2
          exact Or.inr (Or.inr ⟨c, m, fs, hp, rfl, hinc2, Or.inl ⟨rfl, rfl⟩, h3⟩)

theorem pass2Step_pres_dir {rec : List (Path × Nat)} {I E : List Name} {p : Path}
    {info : SrcInfo} {fs fs1 : Fs}
    (h : pass2Step rec I E false p info fs = Except.ok fs1) :
    ∀ q m, Fs.lookup fs q = some (FsNode.dir m) → Fs.lookup fs1 q = some (FsNode.dir m) := by
  intro q m hq
  rcases pass2Step_ok_cases h with ⟨rfl, _⟩ | ⟨dm, m2, _, _, _, hmk⟩ |
    ⟨c, mm, fsi, _, _, _, hpar, hcf⟩
  · exact hq
  · exact mkdirSteps_ok_pres _ _ _ _ hmk q _ hq
  · have hqi : Fs.lookup fsi q = some (FsNode.dir m) := by
      rcases hpar with ⟨_, rfl⟩ | ⟨pm, _, hmk⟩
      · exact hq
      · exact mkdirSteps_ok_pres _ _ _ _ hmk q _ hq
    obtain ⟨hfs1, _, hnod⟩ := CopyFile_ok hcf
    by_cases hpq : p = q
    · exact absurd (hpq ▸ hqi) (hnod m)
    · rw [hfs1, lookup_set, if_neg hpq]; exact hqi

theorem pass2Step_pres_some {rec : List (Path × Nat)} {I E : List Name} {p : Path}
    {info : SrcInfo} {fs fs1 : Fs}
    (h : pass2Step rec I E false p info fs = Except.ok fs1) :
    ∀ q v, Fs.lookup fs q = some v → ¬ stepCopies I E p info q →
      Fs.lookup fs1 q = some v := by
  intro q v hq hnc
  rcases pass2Step_ok_cases h with ⟨rfl, _⟩ | ⟨dm, m2, _, _, _, hmk⟩ |
    ⟨c, mm, fsi, hp, hinfo, hadm, hpar, hcf⟩
  · exact hq
  · exact mkdirSteps_ok_pres _ _ _ _ hmk q _ hq
  · have hqi : Fs.lookup fsi q = some v := by
      rcases hpar with ⟨_, rfl⟩ | ⟨pm, _, hmk⟩
      · exact hq
      · exact mkdirSteps_ok_pres _ _ _ _ hmk q _ hq
    obtain ⟨hfs1, _, _⟩ := CopyFile_ok hcf
    by_cases hpq : p = q
    · exact absurd ⟨hpq.symm, hp, ⟨c, mm, hinfo⟩, hadm⟩ hnc
    · rw [hfs1, lookup_set, if_neg hpq]; exact hqi

theorem pass2Step_frame {rec : List (Path × Nat)} {I E : List Name} {p : Path}
    {info : SrcInfo} {fs fs1 : Fs}
    (h : pass2Step rec I E false p info fs = Except.ok fs1) :
    ∀ q, ¬ touchedByRec rec q → ¬ stepCopies I E p info q →
      Fs.lookup fs1 q = Fs.lookup fs q := by
  intro q hnt hnc
  rcases pass2Step_ok_cases h with ⟨rfl, _⟩ | ⟨dm, m2, hp, _, hrec, hmk⟩ |
    ⟨c, mm, fsi, hp, hinfo, hadm, hpar, hcf⟩
  · rfl
  · refine mkdirSteps_ok_frame _ _ _ _ hmk q ?_
    intro hqmem
    obtain ⟨hqne, hqpre⟩ := mem_prefixesOf.mp hqmem
    exact hnt ⟨hqne, p, by rw [hrec]; rfl, hqpre⟩
  · have hqi : Fs.lookup fsi q = Fs.lookup fs q := by
      rcases hpar with ⟨_, rfl⟩ | ⟨pm, hrec, hmk⟩
      · rfl
      · refine mkdirSteps_ok_frame _ _ _ _ hmk q ?_
        intro hqmem
        obtain ⟨hqne, hqpre⟩ := mem_prefixesOf.mp hqmem
        exact hnt ⟨hqne, p.dropLast, by rw [hrec]; rfl, hqpre⟩
    obtain ⟨hfs1, _, _⟩ := CopyFile_ok hcf
    by_cases hpq : p = q
    · exact absurd ⟨hpq.symm, hp, ⟨c, mm, hinfo⟩, hadm⟩ hnc
    · rw [hfs1, lookup_set, if_neg hpq]; exact hqi

theorem pass2Step_copy {rec : List (Path × Nat)} {I E : List Name} {p : Path}
    {c : List Char} {m : Nat} {fs fs1 : Fs}
    (h : pass2Step rec I E false p (SrcInfo.file c m) fs = Except.ok fs1)
    (hp : p ≠ []) (hadm : shouldInclude (relChars p) I E = true) :
    Fs.lookup fs1 p = some (FsNode.file c m) := by
  rcases pass2Step_ok_cases h with ⟨rfl, hskip⟩ | ⟨dm, m2, _, hinfo, _, _⟩ |
    ⟨c2, m2, fsi, _, hinfo, _, _, hcf⟩
  · rcases hskip with hc | ⟨dm, hinfo, _⟩ | ⟨c2, m2, hinfo, hni⟩
    · exact absurd hc hp
    · cases hinfo
    · injection hinfo with h1 h2
      subst h1; subst h2
      rw [hadm] at hni
      cases hni
  · cases hinfo
  · injection hinfo with h1 h2
    subst h1; subst h2
    obtain ⟨hfs1, _, _⟩ := CopyFile_ok hcf
    rw [hfs1, lookup_set, if_pos rfl]

theorem pass2Step_mkdir {rec : List (Path × Nat)} {I E : List Name} {p : Path}
    {dm : Nat} {m : Nat} {fs fs1 : Fs}
    (h : pass2Step rec I E false p (SrcInfo.dir dm) fs = Except.ok fs1)
    (hp : p ≠ []) (hrec : lookupRec rec p = some m) :
    ∀ q, q ∈ prefixesOf p → ∃ m2, Fs.lookup fs1 q = some (FsNode.dir m2) := by
  intro q hq
  rcases pass2Step_ok_cases h with ⟨rfl, hskip⟩ | ⟨dm2, m2, _, _, hrec2, hmk⟩ |
    ⟨c2, m2, fsi, _, hinfo, _, _, _⟩
  · rcases hskip with hc | ⟨dm2, _, hnone⟩ | ⟨c2, m2, hinfo, _⟩
    · exact absurd hc hp
    · rw [hrec] at hnone; cases hnone
    · cases hinfo
  · exact mkdirSteps_ok_mem _ _ _ _ hmk q hq
  · cases hinfo

/-! ## Lemmas about pass 2 as a whole -/

theorem pass2_ok_cons {rec : List (Path × Nat)} {I E : List Name} {dryRun : Bool}
    {p : Path} {info : SrcInfo} {rest : Src} {fs fs2 : Fs}
    (h : pass2 rec I E dryRun ((p, info) :: rest) fs = Except.ok fs2) :
    ∃ fs1, pass2Step rec I E dryRun p info fs = Except.ok fs1 ∧
      pass2 rec I E dryRun rest fs1 = Except.ok fs2 := by
  simp only [pass2] at h
  cases hs : pass2Step rec I E dryRun p info fs with
  | ok fs1 => rw [hs] at h; exact ⟨fs1, rfl, h⟩
  | error er => rw [hs] at h; cases h

theorem copiesAt_tail {I E : List Name} {e : Path × SrcInfo} {rest : Src} {q : Path} :
    copiesAt I E rest q → copiesAt I E (e :: rest) q := by
  rintro ⟨c, m, hmem, hne, hadm⟩
  exact ⟨c, m, List.mem_cons_of_mem e hmem, hne, hadm⟩

theorem copiesAt_of_step {I E : List Name} {p : Path} {info : SrcInfo} {rest : Src} {q : Path} :
    stepCopies I E p info q → copiesAt I E ((p, info) :: rest) q := by
  rintro ⟨rfl, hp, ⟨c, m, rfl⟩, hadm⟩
  exact ⟨c, m, List.mem_cons_self _ _, hp, hadm⟩

theorem copiesAt_mem_paths {I E : List Name} {l : Src} {q : Path} :
    copiesAt I E l q → q ∈ l.map Prod.fst := by
  rintro ⟨c, m, hmem, _, _⟩
  exact List.mem_map_of_mem Prod.fst hmem

theorem nodupPaths_cons {p : Path} {l : List Path} (h : nodupPaths (p :: l) = true) :
    p ∉ l ∧ nodupPaths l = true := by
  simp only [nodupPaths, Bool.and_eq_true, Bool.not_eq_true'] at h
  obtain ⟨hany, hrest⟩ := h
  refine ⟨fun hc => ?_, hrest⟩
  have : l.any (fun q => decide (q = p)) = true := by
    exact List.any_eq_true.mpr ⟨p, hc, by simp⟩
  rw [this] at hany
  cases hany

theorem pass2_pres_dir {rec : List (Path × Nat)} {I E : List Name} :
    ∀ (l : Src) (fs fs2 : Fs), pass2 rec I E false l fs = Except.ok fs2 →
    ∀ q m, Fs.lookup fs q = some (FsNode.dir m) → Fs.lookup fs2 q = some (FsNode.dir m) := by
  intro l
  induction l with
  | nil =>
    intro fs fs2 h q m hq
    injection h with h2
    rw [← h2]; exact hq
  | cons e rest ih =>
    intro fs fs2 h q m hq
    obtain ⟨p, info⟩ := e
    obtain ⟨fs1, hstep, hrest⟩ := pass2_ok_cons h
    exact ih fs1 fs2 hrest q m (pass2Step_pres_dir hstep q m hq)

theorem pass2_pres {rec : List (Path × Nat)} {I E : List Name} :
    ∀ (l : Src) (fs fs2 : Fs), pass2 rec I E false l fs = Except.ok fs2 →
    ∀ q v, Fs.lookup fs q = some v → ¬ copiesAt I E l q → Fs.lookup fs2 q = some v := by
  intro l
  induction l with
  | nil =>
    intro fs fs2 h q v hq _
    injection h with h2
    rw [← h2]; exact hq
  | cons e rest ih =>
    intro fs fs2 h q v hq hnc
    obtain ⟨p, info⟩ := e
    obtain ⟨fs1, hstep, hrest⟩ := pass2_ok_cons h
    have hq1 : Fs.lookup fs1 q = some v :=
      pass2Step_pres_some hstep q v hq (fun hsc => hnc (copiesAt_of_step hsc))
    exact ih fs1 fs2 hrest q v hq1 (fun hc => hnc (copiesAt_tail hc))

theorem pass2_frame {rec : List (Path × Nat)} {I E : List Name} :
    ∀ (l : Src) (fs fs2 : Fs), pass2 rec I E false l fs = Except.ok fs2 →
    ∀ q, ¬ touchedByRec rec q → ¬ copiesAt I E l q →
      Fs.lookup fs2 q = Fs.lookup fs q := by
  intro l
  induction l with
  | nil =>
    intro fs fs2 h q _ _
    injection h with h2
    rw [h2]
  | cons e rest ih =>
    intro fs fs2 h q hnt hnc
    obtain ⟨p, info⟩ := e
    obtain ⟨fs1, hstep, hrest⟩ := pass2_ok_cons h
    have h1 := pass2Step_frame hstep q hnt (fun hsc => hnc (copiesAt_of_step hsc))
    have h2 := ih fs1 fs2 hrest q hnt (fun hc => hnc (copiesAt_tail hc))
    rw [h2, h1]

theorem pass2_copy {rec : List (Path × Nat)} {I E : List Name} :
    ∀ (l : Src) (fs fs2 : Fs), pass2 rec I E false l fs = Except.ok fs2 →
    nodupPaths (l.map Prod.fst) = true →
    ∀ q c m, (q, SrcInfo.file c m) ∈ l → q ≠ [] →
      shouldInclude (relChars q) I E = true →
      Fs.lookup fs2 q = some (FsNode.file c m) := by
  intro l
  induction l with
  | nil => intro fs fs2 _ _ q c m hmem; cases hmem
  | cons e rest ih =>
    intro fs fs2 h hnd q c m hmem hq hadm
    obtain ⟨p, info⟩ := e
    obtain ⟨fs1, hstep, hrest⟩ := pass2_ok_cons h
    obtain ⟨hnmem, hndrest⟩ := nodupPaths_cons hnd
    rcases List.mem_cons.mp hmem with heq | hrestmem
    · injection heq with h1 h2
      subst h1
      rw [← h2] at hstep
      have hcp := pass2Step_copy hstep hq hadm
      refine pass2_pres rest fs1 fs2 hrest q _ hcp ?_
      intro hc
      exact hnmem (copiesAt_mem_paths hc)
    · refine ih fs1 fs2 hrest hndrest q c m hrestmem hq hadm

theorem pass2_mkdir {rec : List (Path × Nat)} {I E : List Name} :
    ∀ (l : Src) (fs fs2 : Fs), pass2 rec I E false l fs = Except.ok fs2 →
    ∀ d dm m, (d, SrcInfo.dir dm) ∈ l → d ≠ [] → lookupRec rec d = some m →
    ∀ q, q ∈ prefixesOf d → ∃ m2, Fs.lookup fs2 q = some (FsNode.dir m2) := by
  intro l
  induction l with
  | nil => intro fs fs2 _ d dm m hmem; cases hmem
  | cons e rest ih =>
    intro fs fs2 h d dm m hmem hd hrec q hq
    obtain ⟨p, info⟩ := e
    obtain ⟨fs1, hstep, hrest⟩ := pass2_ok_cons h
    rcases List.mem_cons.mp hmem with heq | hrestmem
    · injection heq with h1 h2
      subst h1
      rw [← h2] at hstep
      obtain ⟨m2, hm2⟩ := pass2Step_mkdir hstep hd hrec q hq
      exact ⟨m2, pass2_pres_dir rest fs1 fs2 hrest q m2 hm2⟩
    · exact ih fs1 fs2 hrest d dm m hrestmem hd hrec q hq

theorem pass2Step_dryRun (rec : List (Path × Nat)) (I E : List Name)
    (p : Path) (info : SrcInfo) (fs : Fs) :
    pass2Step rec I E true p info fs = Except.ok fs := by
  unfold pass2Step
  by_cases hp : p = []
  · rw [if_pos hp]
  · rw [if_neg hp]
    cases info with
    | dir dm =>
      cases lookupRec rec p with
      | some m => simp
      | none => rfl
    | file c m =>
      by_cases hinc : shouldInclude (relChars p) I E = false
      · simp [hinc]
      · simp [hinc]

theorem pass2_dryRun (rec : List (Path × Nat)) (I E : List Name) :
    ∀ (l : Src) (fs : Fs), pass2 rec I E true l fs = Except.ok fs := by
  intro l
  induction l with
  | nil => intro fs; rfl
  | cons e rest ih =>
    intro fs
    obtain ⟨p, info⟩ := e
    simp only [pass2, pass2Step_dryRun]
    exact ih fs

/-! ## Well-formedness extraction and upward closure -/

theorem srcWf_nodup {src : Src} (h : SrcWfB src = true) :
    nodupPaths (src.map Prod.fst) = true := by
  simp only [SrcWfB, Bool.and_eq_true] at h
  exact h.1

theorem srcWf_parent_dir {src : Src} (h : SrcWfB src = true) :
    ∀ p i, (p, i) ∈ src → ∀ q, q ∈ prefixesOf p.dropLast → isDirEntry src q = true := by
  simp only [SrcWfB, Bool.and_eq_true, List.all_eq_true] at h
  intro p i hmem q hq
  have h2 := h.2 (p, i) hmem
  simp only [Bool.and_eq_true, List.all_eq_true] at h2
  exact h2.1 q hq

theorem srcWf_root_not_file {src : Src} (h : SrcWfB src = true) :
    ∀ i, ([], i) ∈ src → isFileInfo i = false := by
  simp only [SrcWfB, Bool.and_eq_true, List.all_eq_true] at h
  intro i hmem
  have h2 := h.2 ([], i) hmem
  simp only [Bool.and_eq_true, Bool.or_eq_true, decide_eq_true_eq,
    Bool.not_eq_true'] at h2
  rcases h2.2 with hc | hc
  · exact absurd rfl hc
  · exact hc

theorem isDirEntry_spec {src : Src} {q : Path} (h : isDirEntry src q = true) :
    ∃ m, (q, SrcInfo.dir m) ∈ src := by
  simp only [isDirEntry, List.any_eq_true] at h
  obtain ⟨⟨p, info⟩, hmem, hcond⟩ := h
  cases info with
  | dir m =>
    simp only [Bool.and_eq_true, decide_eq_true_eq] at hcond
    exact ⟨m, hcond.1 ▸ hmem⟩
  | file c m => simp at hcond

theorem isPrefixOf_refl (p : Path) : p.isPrefixOf p = true := by
  simp [ List.isPrefixOf_iff_prefix]

theorem dropLast_isPrefixOf (p : Path) : p.dropLast.isPrefixOf p = true := by
  rw [ List.isPrefixOf_iff_prefix]
  exact List.dropLast_prefix p

theorem dropLast_ne_self {p : Path} (h : p ≠ []) : p.dropLast ≠ p := by
  intro hc
  have h1 : p.dropLast.length = p.length - 1 := List.length_dropLast p
  have h2 : 0 < p.length := List.length_pos.mpr h
  rw [hc] at h1
  omega

/-- A directory strictly above an admitted file is itself admitted: the
inner walk of `shouldIncludeDir` finds that file. -/
theorem shouldIncludeDir_of_admitted_file {src : Src} {I E : List Name}
    {q : Path} {c : List Char} {m : Nat}
    (hmem : (q, SrcInfo.file c m) ∈ src)
    (hadm : shouldInclude (relChars q) I E = true)
    {d : Path} (hd : d ≠ []) (hpre : d.isPrefixOf q = true) (hdq : d ≠ q) :
    shouldIncludeDir d src I E = true := by
  have hasM : src.any (fun e =>
      d.isPrefixOf e.1 && decide (e.1 ≠ d) && isFileInfo e.2 &&
        shouldInclude (relChars e.1) I E) = true := by
    refine List.any_eq_true.mpr ⟨(q, SrcInfo.file c m), hmem, ?_⟩
    have h2 : decide (q ≠ d) = true := decide_eq_true (fun hc => hdq hc.symm)
    show (d.isPrefixOf q && decide (q ≠ d) && isFileInfo (SrcInfo.file c m) &&
      shouldInclude (relChars q) I E) = true
    rw [hpre, h2, hadm]
    rfl
  simp only [shouldIncludeDir, if_neg hd, hasM, Bool.or_true]

/-- C10, part of the assembly: the parent path of any non-root admitted
file is either the root or a recorded, admitted directory. -/
theorem parent_recorded {src : Src} {I E : List Name}
    (hwf : SrcWfB src = true)
    {q : Path} {c : List Char} {m : Nat}
    (hmem : (q, SrcInfo.file c m) ∈ src) (hq : q ≠ [])
    (hadm : shouldInclude (relChars q) I E = true) (hpl : q.dropLast ≠ []) :
    (lookupRec (dirsToCreate src I E) q.dropLast).isSome = true := by
  have hself : q.dropLast ∈ prefixesOf q.dropLast :=
    mem_prefixesOf.mpr ⟨hpl, isPrefixOf_refl _⟩
  obtain ⟨m0, hm0⟩ := isDirEntry_spec (srcWf_parent_dir hwf q _ hmem q.dropLast hself)
  have hadmd : shouldIncludeDir q.dropLast src I E = true :=
    shouldIncludeDir_of_admitted_file hmem hadm hpl (dropLast_isPrefixOf q)
      (dropLast_ne_self hq)
  have hrec : (q.dropLast, m0) ∈ dirsToCreate src I E :=
    (dirsToCreate_mem src I E _ m0).mpr ⟨hm0, hpl, hadmd⟩
  exact lookupRec_isSome_of_mem _ _ m0 hrec

/-! ## The claim theorems for the tree replicator -/

/-- C10: admission is upward-closed from files to directories — every
strict ancestor (below the root) of an admitted source file is admitted by
`shouldIncludeDir`; consequently, on a successful non-dry run, every
non-root admitted file's parent directory has an entry in the directory
admission record and exists as a directory in the final destination. -/
theorem admission_upward_closed
    (src : Src) (I E : List Name) (fs fs2 : Fs)
    (hwf : SrcWfB src = true)
    (h : CopyFiles src fs I E false = Except.ok fs2) :
    (∀ q c m, (q, SrcInfo.file c m) ∈ src → shouldInclude (relChars q) I E = true →
      ∀ d, d ≠ [] → d.isPrefixOf q = true → d ≠ q → shouldIncludeDir d src I E = true)
    ∧ (∀ q c m, (q, SrcInfo.file c m) ∈ src → q ≠ [] →
        shouldInclude (relChars q) I E = true →
        (q.dropLast = [] ∨
          ((lookupRec (dirsToCreate src I E) q.dropLast).isSome = true ∧
            ∃ m2, Fs.lookup fs2 q.dropLast = some (FsNode.dir m2)))) := by
  constructor
  · intro q c m hmem hadm d hd hpre hdq
    exact shouldIncludeDir_of_admitted_file hmem hadm hd hpre hdq
  · intro q c m hmem hq hadm
    by_cases hpl : q.dropLast = []
    · exact Or.inl hpl
    · refine Or.inr ⟨parent_recorded hwf hmem hq hadm hpl, ?_⟩
      have hsome := parent_recorded hwf hmem hq hadm hpl
      obtain ⟨m1, hm1⟩ := Option.isSome_iff_exists.mp hsome
      obtain ⟨hm1mem, hplne, hadmd⟩ := (dirsToCreate_mem src I E _ m1).mp
        (lookupRec_mem _ _ _ hm1)
      have hself : q.dropLast ∈ prefixesOf q.dropLast :=
        mem_prefixesOf.mpr ⟨hpl, isPrefixOf_refl _⟩
      exact pass2_mkdir src fs fs2 h q.dropLast m1 m1 hm1mem hpl hm1 q.dropLast hself

/-- C1 (amended): after a successful non-dry `CopyFiles`, the destination
holds every admitted file with its source bytes and mode, a directory at
every nonempty prefix of every admitted non-root source directory (the
admitted directories themselves plus the ancestors `MkdirAll` creates
implicitly), and every other path exactly as it was before the call —
nothing is removed, and pre-existing entries not overwritten are
untouched. -/
theorem CopyFiles_result (src : Src) (I E : List Name) (fs fs2 : Fs)
    (hwf : SrcWfB src = true)
    (h : CopyFiles src fs I E false = Except.ok fs2) :
    (∀ q c m, (q, SrcInfo.file c m) ∈ src → shouldInclude (relChars q) I E = true →
       Fs.lookup fs2 q = some (FsNode.file c m))
    ∧ (∀ q, inAdmittedDirClosure src I E q → ∃ m2, Fs.lookup fs2 q = some (FsNode.dir m2))
    ∧ (∀ q, ¬ (∃ c m, (q, SrcInfo.file c m) ∈ src ∧ shouldInclude (relChars q) I E = true) →
        ¬ inAdmittedDirClosure src I E q → Fs.lookup fs2 q = Fs.lookup fs q) := by
  refine ⟨?_, ?_, ?_⟩
  · intro q c m hmem hadm
    have hq : q ≠ [] := by
      intro hc
      subst hc
      have := srcWf_root_not_file hwf _ hmem
      simp [isFileInfo] at this
    exact pass2_copy src fs fs2 h (srcWf_nodup hwf) q c m hmem hq hadm
  · rintro q ⟨hqne, d, m, hmem, hdne, hadmd, hpre⟩
    have hrec : (d, m) ∈ dirsToCreate src I E :=
      (dirsToCreate_mem src I E d m).mpr ⟨hmem, hdne, hadmd⟩
    obtain ⟨m1, hm1⟩ := Option.isSome_iff_exists.mp (lookupRec_isSome_of_mem _ _ _ hrec)
    exact pass2_mkdir src fs fs2 h d m m1 hmem hdne hm1 q
      (mem_prefixesOf.mpr ⟨hqne, hpre⟩)
  · intro q hnf hnd
    refine pass2_frame src fs fs2 h q ?_ ?_
    · rintro ⟨hqne, d, hsome, hpre⟩
      obtain ⟨m1, hm1⟩ := Option.isSome_iff_exists.mp hsome
      obtain ⟨hm1mem, hdne, hadmd⟩ := (dirsToCreate_mem src I E d m1).mp
        (lookupRec_mem _ _ _ hm1)
      exact hnd ⟨hqne, d, m1, hm1mem, hdne, hadmd, hpre⟩
    · rintro ⟨c, m, hmem, hqne, hadm⟩
      exact hnf ⟨c, m, hmem, hadm⟩

/-- C1, counterexample to the claim as stated: with no patterns, copying a
source whose directory `nested` only contains the empty directory
`nested/empty_nested` materializes `nested` in the destination although
`shouldIncludeDir` rejects it (its `ReadDir` listing is nonempty and it has
no matching descendant file), so the destination does not contain *exactly*
the admitted directories. -/
theorem CopyFiles_exactness_refuted :
    CopyFiles nestedSrc [] [] [] false =
      Except.ok [(["nested".toList], FsNode.dir 493),
                 (["nested".toList, "empty_nested".toList], FsNode.dir 493)] ∧
    shouldIncludeDir ["nested".toList] nestedSrc [] [] = false ∧
    SrcWfB nestedSrc = true := by decide

/-- C5 (amended): the directory admission record of pass 1 holds exactly
the admitted non-root source directories, each mapped to its source mode;
and every directory pass 2 creates is a (not necessarily proper) nonempty
prefix of a recorded path — the record drives every creation, though
`MkdirAll` also materializes missing ancestors of recorded paths. -/
theorem dirsToCreate_spec (src : Src) (I E : List Name) :
    (∀ p m, (p, m) ∈ dirsToCreate src I E ↔
      ((p, SrcInfo.dir m) ∈ src ∧ p ≠ [] ∧ shouldIncludeDir p src I E = true))
    ∧ (∀ fs fs2, SrcWfB src = true → CopyFiles src fs I E false = Except.ok fs2 →
        ∀ q, Fs.lookup fs q = none → (∃ m2, Fs.lookup fs2 q = some (FsNode.dir m2)) →
          q ≠ [] ∧ ∃ d, (lookupRec (dirsToCreate src I E) d).isSome = true ∧
            q.isPrefixOf d = true) := by
  constructor
  · intro p m
    exact dirsToCreate_mem src I E p m
  · intro fs fs2 hwf h q hnone hdir
    by_cases ht : touchedByRec (dirsToCreate src I E) q
    · exact ht
    · exfalso
      by_cases hcp : copiesAt I E src q
      · obtain ⟨c, m, hmem, hqne, hadm⟩ := hcp
        have := pass2_copy src fs fs2 h (srcWf_nodup hwf) q c m hmem hqne hadm
        obtain ⟨m2, hm2⟩ := hdir
        rw [this] at hm2
        cases hm2
      · have := pass2_frame src fs fs2 h q ht hcp
        obtain ⟨m2, hm2⟩ := hdir
        rw [this, hnone] at hm2
        cases hm2

/-- C5, counterexample to the claim as stated: pass 2 creates the
destination directory `nested` although `nested` has no entry in the
directory admission record (it is an unrecorded ancestor of the recorded
`nested/empty_nested`), so the second pass does not create directories
*only* from the record. -/
theorem dirsToCreate_only_refuted :
    lookupRec (dirsToCreate nestedSrc [] []) ["nested".toList] = none ∧
    CopyFiles nestedSrc [] [] [] false =
      Except.ok [(["nested".toList], FsNode.dir 493),
                 (["nested".toList, "empty_nested".toList], FsNode.dir 493)] ∧
    Fs.lookup [] ["nested".toList] = none := by decide

/-- C6: with `dryRun` set, `CopyFiles` runs both passes' decision logic
(pass 1 is pure planning, pass 2 only emits log lines) and returns
successfully with the destination bit-for-bit untouched, for every source,
destination and pattern sets. -/
theorem CopyFiles_dryRun_noop (src : Src) (fs : Fs) (I E : List Name) :
    CopyFiles src fs I E true = Except.ok fs :=
  pass2_dryRun (dirsToCreate src I E) I E src fs

/-! ## Idempotence of the replicator -/

theorem pass2Step_noop {src : Src} {I E : List Name} {fs2 : Fs}
    (hwf : SrcWfB src = true)
    (hA : ∀ d m, lookupRec (dirsToCreate src I E) d = some m →
      ∀ q, q ∈ prefixesOf d → ∃ m2, Fs.lookup fs2 q = some (FsNode.dir m2))
    (hB : ∀ q c m, (q, SrcInfo.file c m) ∈ src → q ≠ [] →
      shouldInclude (relChars q) I E = true → Fs.lookup fs2 q = some (FsNode.file c m))
    {p : Path} {info : SrcInfo} (hmem : (p, info) ∈ src) :
    pass2Step (dirsToCreate src I E) I E false p info fs2 = Except.ok fs2 := by
  by_cases hp : p = []
  · unfold pass2Step
    rw [if_pos hp]
  · cases info with
    | dir dm =>
      unfold pass2Step
      rw [if_neg hp]
      show (match lookupRec (dirsToCreate src I E) p with
        | some m => if false = true then Except.ok fs2 else mkdirAll fs2 p m
        | none => Except.ok fs2) = Except.ok fs2
      cases hrec : lookupRec (dirsToCreate src I E) p with
      | none => rfl
      | some m =>
        show mkdirAll fs2 p m = Except.ok fs2
        exact mkdirSteps_noop _ m fs2 (fun q hq => hA p m hrec q hq)
    | file c m =>
      unfold pass2Step
      rw [if_neg hp]
      show (if shouldInclude (relChars p) I E = false then Except.ok fs2
        else if false = true then Except.ok fs2
        else match (match lookupRec (dirsToCreate src I E) p.dropLast with
                    | some pm => mkdirAll fs2 p.dropLast pm
                    | none => Except.ok fs2) with
             | Except.error e => Except.error e
             | Except.ok fsi => CopyFile fsi p c m) = Except.ok fs2
      by_cases hadm : shouldInclude (relChars p) I E = false
      · rw [if_pos hadm]
      · rw [if_neg hadm]
        have hadm2 : shouldInclude (relChars p) I E = true := by
          cases hv : shouldInclude (relChars p) I E with
          | false => exact absurd hv hadm
          | true => rfl
        have hfile : Fs.lookup fs2 p = some (FsNode.file c m) := hB p c m hmem hp hadm2
        have hcf : CopyFile fs2 p c m = Except.ok fs2 := by
          have hdir : Fs.isDirAt fs2 p.dropLast = true := by
            cases hplc : p.dropLast with
            | nil => rfl
            | cons a t =>
              have hpl : p.dropLast ≠ [] := by rw [hplc]; exact List.cons_ne_nil a t
              have hsome := parent_recorded hwf hmem hp hadm2 hpl
              obtain ⟨pm, hpm⟩ := Option.isSome_iff_exists.mp hsome
              obtain ⟨m2, hm2⟩ := hA p.dropLast pm hpm p.dropLast
                (mem_prefixesOf.mpr ⟨hpl, isPrefixOf_refl _⟩)
              rw [hplc] at hm2
              show (match Fs.lookup fs2 (a :: t) with
                | some (FsNode.dir _) => true
                | _ => false) = true
              rw [hm2]
          unfold CopyFile
          rw [if_pos hdir, hfile]
          show Except.ok (Fs.set fs2 p (FsNode.file c m)) = Except.ok fs2
          rw [set_id fs2 p _ hfile]
        cases hrec : lookupRec (dirsToCreate src I E) p.dropLast with
        | none => exact hcf
        | some pm =>
          have hnoop : mkdirAll fs2 p.dropLast pm = Except.ok fs2 :=
            mkdirSteps_noop _ pm fs2 (fun q hq => hA p.dropLast pm hrec q hq)
          show (match mkdirAll fs2 p.dropLast pm with
            | Except.error e => Except.error e
            | Except.ok fsi => CopyFile fsi p c m) = Except.ok fs2
          rw [hnoop]
          exact hcf

theorem pass2_again {src : Src} {I E : List Name} {fs fs2 : Fs}
    (hwf : SrcWfB src = true)
    (h1 : pass2 (dirsToCreate src I E) I E false src fs = Except.ok fs2) :
    ∀ l : Src, (∀ e, e ∈ l → e ∈ src) →
      pass2 (dirsToCreate src I E) I E false l fs2 = Except.ok fs2 := by
  have hA : ∀ d m, lookupRec (dirsToCreate src I E) d = some m →
      ∀ q, q ∈ prefixesOf d → ∃ m2, Fs.lookup fs2 q = some (FsNode.dir m2) := by
    intro d m hrec q hq
    obtain ⟨hdmem, hdne, _⟩ := (dirsToCreate_mem src I E d m).mp (lookupRec_mem _ _ _ hrec)
    exact pass2_mkdir src fs fs2 h1 d m m hdmem hdne hrec q hq
  have hB : ∀ q c m, (q, SrcInfo.file c m) ∈ src → q ≠ [] →
      shouldInclude (relChars q) I E = true →
      Fs.lookup fs2 q = some (FsNode.file c m) :=
    fun q c m hqmem hq hadm => pass2_copy src fs fs2 h1 (srcWf_nodup hwf) q c m hqmem hq hadm
  intro l
  induction l with
  | nil => intro _; rfl
  | cons e rest ih =>
    intro hsub
    obtain ⟨p, info⟩ := e
    have hstep := pass2Step_noop hwf hA hB (hsub (p, info) (List.mem_cons_self _ _))
    simp only [pass2, hstep]
    exact ih (fun e2 he2 => hsub e2 (List.mem_cons_of_mem _ he2))

/-- C7: `CopyFiles` is idempotent — re-running it over its own successful
output (same source, includes, excludes, `dryRun` false) succeeds and
leaves the destination exactly as after the first run; and the embedded
`CopyFile` silently truncates and replaces an existing destination file
(its result is the destination with that path overwritten by the source
bytes and mode, with no error and no prompt). -/
theorem CopyFiles_idempotent (src : Src) (I E : List Name) (fs fs2 : Fs)
    (hwf : SrcWfB src = true)
    (h1 : CopyFiles src fs I E false = Except.ok fs2) :
    CopyFiles src fs2 I E false = Except.ok fs2 ∧
    (∀ (gs : Fs) (p : Path) (c c0 : List Char) (m m0 : Nat),
      Fs.lookup gs p = some (FsNode.file c0 m0) → Fs.isDirAt gs p.dropLast = true →
      CopyFile gs p c m = Except.ok (Fs.set gs p (FsNode.file c m))) := by
  constructor
  · exact pass2_again hwf h1 src (fun e he => he)
  · intro gs p c c0 m m0 hl hdir
    unfold CopyFile
    rw [if_pos hdir, hl]

/-- C7 witness: a concrete double run. -/
theorem CopyFiles_idempotent_witness :
    CopyFiles testSrc testDestAll [] [] false = Except.ok testDestAll ∧
    CopyFile [(["a".toList], FsNode.file "x".toList 420)] ["a".toList] "y".toList 493 =
      Except.ok [(["a".toList], FsNode.file "y".toList 493)] := by
  have h := CopyFiles_idempotent testSrc [] [] [] testDestAll (by decide) (by decide)
  refine ⟨h.1, ?_⟩
  have h2 := h.2 [(["a".toList], FsNode.file "x".toList 420)] ["a".toList]
    "y".toList "x".toList 493 420 (by decide) (by decide)
  rw [h2]
  decide

/-! ## The inclusion policy claims -/

theorem shouldInclude_eq (path : List Char) (I E : List (List Char)) :
    shouldInclude path I E =
      ((I.isEmpty || I.any (fun pat => matchOrFalse (toSlashL pat) (toSlashL path))) &&
        !(E.any (fun pat => matchOrFalse (toSlashL pat) (toSlashL path)))) := by
  unfold shouldInclude
  cases hi : (I.isEmpty || I.any (fun pat => matchOrFalse (toSlashL pat) (toSlashL path))) with
  | false => simp [hi]
  | true => simp [hi]

/-- C2: `shouldInclude` admits a path iff the include set is empty or some
include pattern matches it, and no exclude pattern matches it; when
inclusion fails the result is `false` for *every* exclude list (the exclude
patterns are never consulted); and a matching exclude pattern forces
`false` regardless of the includes.  Matching is the doublestar match on
slash-normalized pattern and path, a malformed pattern matching nothing. -/
theorem shouldInclude_spec (path : List Char) (I E : List (List Char)) :
    (shouldInclude path I E = true ↔
      ((I = [] ∨ ∃ pat, pat ∈ I ∧ matchOrFalse (toSlashL pat) (toSlashL path) = true) ∧
        (∀ pat, pat ∈ E → matchOrFalse (toSlashL pat) (toSlashL path) = false)))
    ∧ ((I ≠ [] ∧ ∀ pat, pat ∈ I → matchOrFalse (toSlashL pat) (toSlashL path) = false) →
        ∀ E2, shouldInclude path I E2 = false)
    ∧ (∀ pat, pat ∈ E → matchOrFalse (toSlashL pat) (toSlashL path) = true →
        shouldInclude path I E = false) := by
  refine ⟨?_, ?_, ?_⟩
  · rw [shouldInclude_eq]
    simp only [Bool.and_eq_true, Bool.or_eq_true, List.isEmpty_iff, List.any_eq_true,
      Bool.not_eq_true', List.any_eq_false, Bool.not_eq_true]
  · rintro ⟨hne, hall⟩ E2
    rw [shouldInclude_eq]
    have h1 : I.isEmpty = false := by
      cases I with
      | nil => exact absurd rfl hne
      | cons a t => rfl
    have h2 : I.any (fun pat => matchOrFalse (toSlashL pat) (toSlashL path)) = false :=
      List.any_eq_false.mpr (fun pat hmem => by rw [hall pat hmem]; exact Bool.false_ne_true)
    rw [h1, h2]
    rfl
  · intro pat hmem hm
    rw [shouldInclude_eq]
    have h2 : E.any (fun pat => matchOrFalse (toSlashL pat) (toSlashL path)) = true :=
      List.any_eq_true.mpr ⟨pat, hmem, hm⟩
    rw [h2]
    simp

/-- C2 witness. -/
theorem shouldInclude_spec_witness :
    shouldInclude "file.txt".toList ["*.txt".toList] ["file.*".toList] = false :=
  (shouldInclude_spec "file.txt".toList ["*.txt".toList] ["file.*".toList]).2.2
    "file.*".toList (List.mem_cons_self _ _) (by decide)

/-- C3 (amended): the mapping root is always admitted; a non-root directory
is admitted iff EITHER it has no direct child entry at all (the code's
`len(ReadDir) == 0` — not "no descendant files") and its own relative path
passes `shouldInclude`, OR some descendant file at any depth passes
`shouldInclude`. -/
theorem shouldIncludeDir_spec (dirPath : Path) (src : Src) (I E : List Name) :
    shouldIncludeDir [] src I E = true ∧
    (dirPath ≠ [] →
      (shouldIncludeDir dirPath src I E = true ↔
        ((hasDirectEntryB src dirPath = false ∧
            shouldInclude (relChars dirPath) I E = true) ∨
          (∃ e, e ∈ src ∧ dirPath.isPrefixOf e.1 = true ∧ e.1 ≠ dirPath ∧
            isFileInfo e.2 = true ∧ shouldInclude (relChars e.1) I E = true)))) := by
  constructor
  · simp [shouldIncludeDir]
  · intro hne
    unfold shouldIncludeDir hasDirectEntryB
    rw [if_neg hne]
    simp only [Bool.or_eq_true, Bool.and_eq_true, Bool.not_eq_true', List.any_eq_true,
      decide_eq_true_eq]
    constructor
    · rintro (⟨hempty, hincl⟩ | ⟨e, hmem, hcond⟩)
      · exact Or.inl ⟨List.any_eq_false.mpr (fun e hmem hc => by
          rw [List.any_eq_false] at hempty
          exact hempty e hmem hc), hincl⟩
      · exact Or.inr ⟨e, hmem, hcond.1.1.1, hcond.1.1.2, hcond.1.2, hcond.2⟩
    · rintro (⟨hempty, hincl⟩ | ⟨e, hmem, h1, h2, h3, h4⟩)
      · exact Or.inl ⟨by
          rw [List.any_eq_false]
          rw [List.any_eq_false] at hempty
          exact fun e hmem hc => hempty e hmem hc, hincl⟩
      · exact Or.inr ⟨e, hmem, ⟨⟨⟨h1, h2⟩, h3⟩, h4⟩⟩

/-- C3 witness. -/
theorem shouldIncludeDir_spec_witness :
    shouldIncludeDir ["subdir1".toList] testSrc ["**/*.txt".toList] [] = true := by
  refine ((shouldIncludeDir_spec ["subdir1".toList] testSrc ["**/*.txt".toList] []).2
    (by decide)).mpr ?_
  exact Or.inr ⟨(["subdir1".toList, "file3.txt".toList], SrcInfo.file "file3".toList 420),
    by decide, by decide, by decide, by decide, by decide⟩

/-- C3, counterexample to the claim as stated: the directory `nested` has
no descendant files and its own path passes `admitFile` with empty pattern
sets, so the claim's rule admits it, but `shouldIncludeDir` rejects it
because its `ReadDir` listing is nonempty (it contains the subdirectory
`empty_nested`): the code's "empty" means no direct entries, not no
descendant files. -/
theorem shouldIncludeDir_empty_refuted :
    shouldIncludeDir ["nested".toList] nestedSrc [] [] = false ∧
    admitDirSpec ["nested".toList] nestedSrc [] [] = true ∧
    SrcWfB nestedSrc = true := by decide

/-! ## Lemmas about renaming and the exploder -/

theorem isPrefixOf_append (p r : Path) : p.isPrefixOf (p ++ r) = true := by
  rw [ List.isPrefixOf_iff_prefix]
  exact List.prefix_append p r

theorem isPrefixOf_single_cons (x c : Name) (t : Path) :
    [x].isPrefixOf (c :: t) = (x == c) := by
  simp [List.isPrefixOf]

theorem isPrefixOf_pair_single (a b y : Name) : [a, b].isPrefixOf [y] = false := by
  simp [List.isPrefixOf]

theorem isPrefixOf_pair_pair_ne {b d : Name} (a c : Name) (h : b ≠ d) :
    [a, b].isPrefixOf [c, d] = false := by
  simp [List.isPrefixOf, h]

theorem lookup_renameSubtree_other {src dst q : Path} : ∀ {fs : Fs},
    src.isPrefixOf q = false → dst.isPrefixOf q = false →
    Fs.lookup (renameSubtree fs src dst) q = Fs.lookup fs q := by
  intro fs
  induction fs with
  | nil => intro _ _; rfl
  | cons kv rest ih =>
    intro hs hd
    obtain ⟨k, v⟩ := kv
    simp only [renameSubtree, List.map_cons] at ih ⊢
    by_cases hk : src.isPrefixOf k = true
    · rw [if_pos hk]
      have hnew : ¬ (dst ++ k.drop src.length) = q := by
        intro hc
        rw [← hc, isPrefixOf_append] at hd
        cases hd
      have hold : ¬ k = q := by
        intro hc
        rw [hc] at hk
        rw [hk] at hs
        cases hs
      simp only [Fs.lookup, if_neg hnew, if_neg hold]
      exact ih hs hd
    · rw [if_neg hk]
      by_cases hkq : k = q
      · simp only [Fs.lookup, if_pos hkq]
      · simp only [Fs.lookup, if_neg hkq]
        exact ih hs hd

theorem lookup_renameSubtree_hit {src dst : Path} : ∀ {fs : Fs},
    Fs.lookup fs dst = none →
    Fs.lookup (renameSubtree fs src dst) dst = Fs.lookup fs src := by
  intro fs
  induction fs with
  | nil => intro _; rfl
  | cons kv rest ih =>
    intro hd
    obtain ⟨k, v⟩ := kv
    have hkd : ¬ k = dst := by
      intro hc
      simp only [Fs.lookup, if_pos hc] at hd
      cases hd
    have hrest : Fs.lookup rest dst = none := by
      simp only [Fs.lookup, if_neg hkd] at hd
      exact hd
    simp only [renameSubtree, List.map_cons] at ih ⊢
    by_cases hk : src.isPrefixOf k = true
    · rw [if_pos hk]
      by_cases hks : k = src
      · subst hks
        have hdrop : k.drop k.length = ([] : Path) := List.drop_length k
        simp only [Fs.lookup, hdrop, List.append_nil]
        simp
      · have hnew : ¬ (dst ++ k.drop src.length) = dst := by
          intro hc
          have hlen : (dst ++ k.drop src.length).length = dst.length := by rw [hc]
          rw [List.length_append, List.length_drop] at hlen
          have hkl : src.length ≤ k.length := by
            rw [ List.isPrefixOf_iff_prefix] at hk
            exact hk.length_le
          have hkeq : k.length = src.length := by omega
          rw [ List.isPrefixOf_iff_prefix] at hk
          exact hks ((hk.eq_of_length hkeq.symm).symm)
        simp only [Fs.lookup, if_neg hnew, if_neg hks]
        exact ih hrest
    · have hks : ¬ k = src := by
        intro hc
        rw [hc, isPrefixOf_refl] at hk
        exact hk rfl
      rw [if_neg hk]
      simp only [Fs.lookup, if_neg hkd, if_neg hks]
      exact ih hrest

theorem lookup_renameSubtree_gone {src dst q : Path} : ∀ {fs : Fs},
    src.isPrefixOf q = true → dst.isPrefixOf q = false →
    Fs.lookup (renameSubtree fs src dst) q = none := by
  intro fs
  induction fs with
  | nil => intro _ _; rfl
  | cons kv rest ih =>
    intro hq hd
    obtain ⟨k, v⟩ := kv
    simp only [renameSubtree, List.map_cons] at ih ⊢
    by_cases hk : src.isPrefixOf k = true
    · rw [if_pos hk]
      have hnew : ¬ (dst ++ k.drop src.length) = q := by
        intro hc
        rw [← hc, isPrefixOf_append] at hd
        cases hd
      simp only [Fs.lookup, if_neg hnew]
      exact ih hq hd
    · have hkq : ¬ k = q := by
        intro hc
        rw [hc, hq] at hk
        exact hk rfl
      rw [if_neg hk]
      simp only [Fs.lookup, if_neg hkq]
      exact ih hq hd

theorem explodeMoves_conflict {e n : Name} {l2 : List Name} :
    ∀ (l1 : List Name) (fs : Fs),
    (∀ x, x ∈ l1 → Fs.lookup fs [x] = none) →
    (∀ x, x ∈ l1 → x ≠ e) →
    (∀ x, x ∈ l1 → x ≠ n) →
    l1.Nodup →
    (Fs.lookup fs [n]).isSome = true →
    ∃ fs1, explodeMoves e (l1 ++ n :: l2) fs = (some (ExpErr.conflict n), fs1) ∧
      (∀ q : Path,
        (∀ x, x ∈ l1 → ([e, x].isPrefixOf q = false ∧ [x].isPrefixOf q = false)) →
        Fs.lookup fs1 q = Fs.lookup fs q) ∧
      (∀ x, x ∈ l1 → Fs.lookup fs1 [x] = Fs.lookup fs [e, x] ∧
        Fs.lookup fs1 [e, x] = none) := by
  intro l1
  induction l1 with
  | nil =>
    intro fs _ _ _ _ hSome
    refine ⟨fs, ?_, fun q _ => rfl, fun x hx => absurd hx (List.not_mem_nil x)⟩
    show explodeMoves e (n :: l2) fs = (some (ExpErr.conflict n), fs)
    unfold explodeMoves
    rw [if_pos hSome]
  | cons x l1t ih =>
    intro fs hnone hne hnn hnd hSome
    have hx_none : Fs.lookup fs [x] = none := hnone x (List.mem_cons_self x l1t)
    have hx_ne : x ≠ e := hne x (List.mem_cons_self x l1t)
    have hx_nn : x ≠ n := hnn x (List.mem_cons_self x l1t)
    have hx_notin : x ∉ l1t := (List.nodup_cons.mp hnd).1
    have hndt : l1t.Nodup := (List.nodup_cons.mp hnd).2
    set fs' := renameSubtree fs [e, x] [x] with hfs'
    have hframe_step : ∀ q : Path, [e, x].isPrefixOf q = false → [x].isPrefixOf q = false →
        Fs.lookup fs' q = Fs.lookup fs q := by
      intro q h1 h2
      exact lookup_renameSubtree_other h1 h2
    have hnone' : ∀ y, y ∈ l1t → Fs.lookup fs' [y] = none := by
      intro y hy
      have hyx : y ≠ x := fun hc => hx_notin (hc ▸ hy)
      rw [hframe_step [y] (isPrefixOf_pair_single e x y)
        (by rw [isPrefixOf_single_cons]; exact beq_eq_false_iff_ne.mpr (fun hc => hyx hc.symm))]
      exact hnone y (List.mem_cons_of_mem x hy)
    have hSome' : (Fs.lookup fs' [n]).isSome = true := by
      rw [hframe_step [n] (isPrefixOf_pair_single e x n)
        (by rw [isPrefixOf_single_cons]; exact beq_eq_false_iff_ne.mpr hx_nn)]
      exact hSome
    obtain ⟨fs1, hres, hframe, hmoved⟩ := ih fs' hnone'
      (fun y hy => hne y (List.mem_cons_of_mem x hy))
      (fun y hy => hnn y (List.mem_cons_of_mem x hy)) hndt hSome'
    refine ⟨fs1, ?_, ?_, ?_⟩
    · show explodeMoves e ((x :: l1t) ++ n :: l2) fs = (some (ExpErr.conflict n), fs1)
      have hx_isSome : (Fs.lookup fs [x]).isSome = false := by rw [hx_none]; rfl
      show (if (Fs.lookup fs [x]).isSome = true then (some (ExpErr.conflict x), fs)
        else explodeMoves e (l1t ++ n :: l2) (renameSubtree fs [e, x] [x])) =
        (some (ExpErr.conflict n), fs1)
      rw [hx_isSome]
      simp only [Bool.false_eq_true, if_false]
      exact hres
    · intro q hq
      obtain ⟨hq1, hq2⟩ := hq x (List.mem_cons_self x l1t)
      rw [hframe q (fun y hy => hq y (List.mem_cons_of_mem x hy))]
      exact hframe_step q hq1 hq2
    · intro y hy
      rcases List.mem_cons.mp hy with heq | hyt
      · subst heq
        constructor
        · have h1 : Fs.lookup fs1 [y] = Fs.lookup fs' [y] := by
            refine hframe [y] ?_
            intro z hz
            have hzy : z ≠ y := fun hc => hx_notin (hc ▸ hz)
            exact ⟨isPrefixOf_pair_single e z y,
              by rw [isPrefixOf_single_cons]; exact beq_eq_false_iff_ne.mpr hzy⟩
          rw [h1, hfs']
          exact lookup_renameSubtree_hit hx_none
        · have h1 : Fs.lookup fs1 [e, y] = Fs.lookup fs' [e, y] := by
            refine hframe [e, y] ?_
            intro z hz
            have hzy : z ≠ y := fun hc => hx_notin (hc ▸ hz)
            have hze : z ≠ e := hne z (List.mem_cons_of_mem _ hz)
            exact ⟨isPrefixOf_pair_pair_ne e e hzy,
              by rw [isPrefixOf_single_cons]; exact beq_eq_false_iff_ne.mpr hze⟩
          rw [h1, hfs']
          refine lookup_renameSubtree_gone (isPrefixOf_refl _) ?_
          rw [isPrefixOf_single_cons]
          exact beq_eq_false_iff_ne.mpr hx_ne
      · obtain ⟨hm1, hm2⟩ := hmoved y hyt
        have hyx : y ≠ x := fun hc => hx_notin (hc ▸ hyt)
        constructor
        · rw [hm1, hfs']
          rw [lookup_renameSubtree_other (isPrefixOf_pair_pair_ne e e (Ne.symm hyx))
            (by rw [isPrefixOf_single_cons]; exact beq_eq_false_iff_ne.mpr hx_ne)]
        · exact hm2

/-- C4: `ExplodeFolder` on a missing folder returns `(false, nil)` with the
destination untouched; on a non-directory it returns `(true, error)`
untouched; and when a direct child's name already exists at the destination
root it aborts with a conflict error naming the collision and without
rollback — children moved earlier in the same call stay moved (present at
the root, gone from the subdirectory), the subdirectory itself is not
removed, and the pre-existing colliding entry keeps its prior content. -/
theorem ExplodeFolder_spec (fs : Fs) (e : Name) :
    (Fs.lookup fs [e] = none → ExplodeFolder fs e = ((false, none), fs))
    ∧ (∀ c m, Fs.lookup fs [e] = some (FsNode.file c m) →
        ExplodeFolder fs e = ((true, some (ExpErr.notDir e)), fs))
    ∧ (∀ dm l1 n l2,
        Fs.lookup fs [e] = some (FsNode.dir dm) →
        childNamesOf fs [e] = l1 ++ n :: l2 →
        (∀ x, x ∈ l1 → Fs.lookup fs [x] = none) →
        (Fs.lookup fs [n]).isSome = true →
        (l1 ++ n :: l2).Nodup →
        ∃ fs1, ExplodeFolder fs e = ((true, some (ExpErr.conflict n)), fs1) ∧
          Fs.lookup fs1 [n] = Fs.lookup fs [n] ∧
          Fs.lookup fs1 [e] = some (FsNode.dir dm) ∧
          (∀ x, x ∈ l1 → Fs.lookup fs1 [x] = Fs.lookup fs [e, x] ∧
            Fs.lookup fs1 [e, x] = none)) := by
  refine ⟨?_, ?_, ?_⟩
  · intro h
    unfold ExplodeFolder
    rw [h]
  · intro c m h
    unfold ExplodeFolder
    rw [h]
  · intro dm l1 n l2 he hitems hnone hSome hnd
    have hnd_ap := List.nodup_append.mp hnd
    have hn_notin : n ∉ l1 := fun hc =>
      hnd_ap.2.2 hc (List.mem_cons_self n l2)
    have hne : ∀ x, x ∈ l1 → x ≠ e := by
      intro x hx hc
      have := hnone x hx
      rw [hc, he] at this
      cases this
    have hnn : ∀ x, x ∈ l1 → x ≠ n := fun x hx hc => hn_notin (hc ▸ hx)
    obtain ⟨fs1, hres, hframe, hmoved⟩ :=
      explodeMoves_conflict l1 fs hnone hne hnn hnd_ap.1 hSome
    refine ⟨fs1, ?_, ?_, ?_, hmoved⟩
    · unfold ExplodeFolder
      rw [he]
      show (match explodeMoves e (childNamesOf fs [e]) fs with
        | (some er, fs1) => ((true, some er), fs1)
        | (none, fs1) =>
          if (childNamesOf fs1 [e]).isEmpty = true then ((true, none), Fs.remove fs1 [e])
          else ((true, some (ExpErr.removeFailed e)), fs1)) =
        ((true, some (ExpErr.conflict n)), fs1)
      rw [hitems, hres]
    · rw [hframe [n] (fun x hx => ⟨isPrefixOf_pair_single e x n,
        by rw [isPrefixOf_single_cons]; exact beq_eq_false_iff_ne.mpr (hnn x hx)⟩)]
    · rw [hframe [e] (fun x hx => ⟨isPrefixOf_pair_single e x e,
        by rw [isPrefixOf_single_cons]; exact beq_eq_false_iff_ne.mpr (hne x hx)⟩)]
      exact he

/-- C4 witness: spec Scenario D — the pre-existing `mario.sfc` at the root
conflicts with `sub/mario.sfc`. -/
theorem ExplodeFolder_spec_witness :
    ∃ fs1, ExplodeFolder marioFs "sub".toList =
        ((true, some (ExpErr.conflict "mario.sfc".toList)), fs1) ∧
      Fs.lookup fs1 ["mario.sfc".toList] = Fs.lookup marioFs ["mario.sfc".toList] ∧
      Fs.lookup fs1 ["sub".toList] = some (FsNode.dir 493) ∧
      (∀ x, x ∈ ([] : List Name) →
        Fs.lookup fs1 [x] = Fs.lookup marioFs ["sub".toList, x] ∧
        Fs.lookup fs1 ["sub".toList, x] = none) :=
  (ExplodeFolder_spec marioFs "sub".toList).2.2 493 [] "mario.sfc".toList []
    (by decide) (by decide) (fun x hx => absurd hx (List.not_mem_nil x))
    (by decide) (by decide)

/-! ## The rewrite-engine and configuration claims -/

/-- C8 (amended): for a rewrite rule with `isRegex` set whose search
pattern does not compile, the destination filesystem is never mutated;
when the (well-formed) glob matches at least one entry the rule aborts
with the invalid-regex error — the regex is compiled before any file is
touched; and when the glob matches nothing the rule returns not-found
with no error. -/
theorem SearchAndReplace_invalidRegex (fs : Fs) (glob search repl : List Char)
    (hbad : rxCompile search = none) :
    (SearchAndReplace fs glob search repl true).2 = fs ∧
    (∀ ps, parsePatternL glob = some ps → (globMatchList fs ps).isEmpty = false →
      SearchAndReplace fs glob search repl true =
        ((true, some (SrErr.invalidRegex search)), fs)) ∧
    (∀ ps, parsePatternL glob = some ps → (globMatchList fs ps).isEmpty = true →
      SearchAndReplace fs glob search repl true = ((false, none), fs)) := by
  refine ⟨?_, ?_, ?_⟩
  · unfold SearchAndReplace
    cases hpp : parsePatternL glob with
    | none => rfl
    | some ps =>
      show (if (globMatchList fs ps).isEmpty = true then
          (((false, none) : Bool × Option SrErr), fs)
        else match rxCompile search with
          | none => ((true, some (SrErr.invalidRegex search)), fs)
          | some r =>
            match sarLoop (fun content => rxReplaceAll r repl content)
                (globMatchList fs ps) fs with
            | (e?, fs1) => ((true, e?), fs1)).2 = fs
      rw [hbad]
      by_cases hemp : (globMatchList fs ps).isEmpty = true
      · rw [if_pos hemp]
      · rw [if_neg hemp]
  · intro ps hpp hemp
    unfold SearchAndReplace
    rw [hpp]
    show (if (globMatchList fs ps).isEmpty = true then
        (((false, none) : Bool × Option SrErr), fs)
      else match rxCompile search with
        | none => ((true, some (SrErr.invalidRegex search)), fs)
        | some r =>
          match sarLoop (fun content => rxReplaceAll r repl content)
              (globMatchList fs ps) fs with
          | (e?, fs1) => ((true, e?), fs1)) =
      ((true, some (SrErr.invalidRegex search)), fs)
    rw [hbad, if_neg (by rw [hemp]; exact Bool.false_ne_true)]
  · intro ps hpp hemp
    unfold SearchAndReplace
    rw [hpp]
    show (if (globMatchList fs ps).isEmpty = true then
        (((false, none) : Bool × Option SrErr), fs)
      else match rxCompile search with
        | none => ((true, some (SrErr.invalidRegex search)), fs)
        | some r =>
          match sarLoop (fun content => rxReplaceAll r repl content)
              (globMatchList fs ps) fs with
          | (e?, fs1) => ((true, e?), fs1)) = ((false, none), fs)
    rw [if_pos hemp]

/-- C8, counterexample to the claim as stated: a rule whose valid glob
matches no file and whose regex is invalid returns `(false, nil)` — no
error is reported (nothing is mutated, but the rule does not abort with an
error). -/
theorem SearchAndReplace_invalidRegex_noError :
    rxCompile "[invalid".toList = none ∧
    SearchAndReplace [] "*.m3u".toList "[invalid".toList "x".toList true =
      ((false, none), []) := by decide

/-- C8 witness. -/
theorem SearchAndReplace_invalidRegex_witness :
    SearchAndReplace [(["a.m3u".toList], FsNode.file "y".toList 420)]
      "*.m3u".toList "[invalid".toList "x".toList true =
      ((true, some (SrErr.invalidRegex "[invalid".toList)),
        [(["a.m3u".toList], FsNode.file "y".toList 420)]) :=
  (SearchAndReplace_invalidRegex [(["a.m3u".toList], FsNode.file "y".toList 420)]
    "*.m3u".toList "[invalid".toList "x".toList (by decide)).2.1
    [GlobSeg.toks [GlobTok.anyRun, GlobTok.lit '.', GlobTok.lit 'm',
      GlobTok.lit '3', GlobTok.lit 'u']] (by decide) (by decide)

theorem parseRewrites_ok_regex : ∀ (l : List (List Char)) (rs : List RewriteRule),
    parseRewrites true l = Except.ok rs →
    ∀ rw2, rw2 ∈ rs → (rxCompile rw2.searchPattern).isSome = true := by
  intro l
  induction l with
  | nil =>
    intro rs h rw2 hmem
    injection h with h2
    rw [← h2] at hmem
    cases hmem
  | cons rw rest ih =>
    intro rs h rw2 hmem
    unfold parseRewrites at h
    split at h
    · next g s r heq =>
      split at h
      · cases h
      · next hcond =>
        have hsome : (rxCompile s).isSome = true := by
          cases hc : rxCompile s with
          | none => exact absurd ⟨rfl, hc⟩ hcond
          | some r2 => rfl
        cases hrec : parseRewrites true rest with
        | ok rs2 =>
          rw [hrec] at h
          injection h with h2
          rw [← h2] at hmem
          rcases List.mem_cons.mp hmem with heq2 | hmem2
          · rw [heq2]
            exact hsome
          · exact ih rs2 hrec rw2 hmem2
        | error er => rw [hrec] at h; cases h
    · cases h

theorem parseMappings_ok_exists : ∀ (l : List (List Char)) (srcDir : List Char)
    (existing : List (List Char)) (ms : List DirMapping),
    parseMappings srcDir existing l = Except.ok ms →
    ∀ mp, mp ∈ ms → existing.contains (srcDir ++ '/' :: mp.source) = true := by
  intro l
  induction l with
  | nil =>
    intro srcDir existing ms h mp hmem
    injection h with h2
    rw [← h2] at hmem
    cases hmem
  | cons m rest ih =>
    intro srcDir existing ms h mp hmem
    unfold parseMappings at h
    split at h
    · next s d heq =>
      split at h
      · next hex =>
        cases hrec : parseMappings srcDir existing rest with
        | ok ms2 =>
          rw [hrec] at h
          injection h with h2
          rw [← h2] at hmem
          rcases List.mem_cons.mp hmem with heq2 | hmem2
          · rw [heq2]
            exact hex
          · exact ih srcDir existing ms2 hrec mp hmem2
        | error er => rw [hrec] at h; cases h
      · cases h
    · cases h

/-- C9 (amended): configuration validation is eager for regexes and for
mapping source directories — a successful `ParseAndValidate` (which never
mutates the filesystem: it only reads) guarantees the source directory
exists, every mapping's source subdirectory exists, and, when the regex
flag is set, every rewrite search pattern compiles.  But malformed glob
patterns are not validated anywhere: a malformed include or exclude
pattern is silently treated as matching nothing (`shouldInclude` discards
the `doublestar.Match` error), `CopyFiles` with a malformed include
succeeds and copies nothing instead of aborting, and a malformed rewrite
glob makes `SearchAndReplace` report not-found, which `processRewrites`
skips, continuing the run with the destination unchanged. -/
theorem config_validation_spec :
    (∀ cli existing cfg, ParseAndValidate cli existing = Except.ok cfg →
      ((cli.rewritesAreRegex = true →
          ∀ rw2, rw2 ∈ cfg.fileRewrites → (rxCompile rw2.searchPattern).isSome = true) ∧
        existing.contains cli.sourceDir = true ∧
        (∀ mp, mp ∈ cfg.mappings →
          existing.contains (cli.sourceDir ++ '/' :: mp.source) = true)))
    ∧ (∀ pat path E2, parsePatternL (toSlashL pat) = none →
        shouldInclude path [pat] E2 = false)
    ∧ (∀ src fs pat E2, parsePatternL (toSlashL pat) = none →
        CopyFiles src fs [pat] E2 false = Except.ok fs)
    ∧ (∀ (fs : Fs) (glob search repl : List Char) (isRegex : Bool)
        (rest : List RewriteRule), parsePatternL glob = none →
        processRewrites isRegex false
          (({ fileGlob := glob, searchPattern := search,
              replacePattern := repl } : RewriteRule) :: rest) fs =
          processRewrites isRegex false rest fs) := by
  have hsi : ∀ pat path E2, parsePatternL (toSlashL pat) = none →
      shouldInclude path [pat] E2 = false := by
    intro pat path E2 hbad
    rw [shouldInclude_eq]
    have hm : matchOrFalse (toSlashL pat) (toSlashL path) = false := by
      unfold matchOrFalse dsMatchL
      rw [hbad]
    have hany : ([pat].any (fun pt => matchOrFalse (toSlashL pt) (toSlashL path))) = false := by
      simp only [List.any_cons, List.any_nil, hm, Bool.or_false]
    show ((([pat] : List (List Char)).isEmpty ||
        [pat].any (fun pt => matchOrFalse (toSlashL pt) (toSlashL path))) &&
      !(E2.any (fun pt => matchOrFalse (toSlashL pt) (toSlashL path)))) = false
    rw [hany]
    rfl
  refine ⟨?_, hsi, ?_, ?_⟩
  · intro cli existing cfg h
    unfold ParseAndValidate at h
    split at h
    · cases h
    · next hex =>
      have hex2 : existing.contains cli.sourceDir = true := by
        cases hc : existing.contains cli.sourceDir with
        | false => exact absurd hc hex
        | true => rfl
      cases hms : parseMappings cli.sourceDir existing cli.mappings with
      | error er => rw [hms] at h; cases h
      | ok ms =>
        rw [hms] at h
        cases hrs : parseRenames cli.renames with
        | error er => rw [hrs] at h; cases h
        | ok rs =>
          rw [hrs] at h
          cases hrw : parseRewrites cli.rewritesAreRegex cli.rewrites with
          | error er => rw [hrw] at h; cases h
          | ok rws =>
            rw [hrw] at h
            have h3 :
                (if ms.isEmpty = true
                  then (Except.error CfgErr.noMappings : Except CfgErr Config)
                  else Except.ok
                    { mappings := ms, renames := rs, fileRewrites := rws }) =
                Except.ok cfg := h
            by_cases hms_emp : ms.isEmpty = true
            · rw [if_pos hms_emp] at h3
              cases h3
            · rw [if_neg hms_emp] at h3
              injection h3 with h2
              rw [← h2]
              refine ⟨?_, hex2, ?_⟩
              · intro hflag rw2 hmem
                rw [hflag] at hrw
                exact parseRewrites_ok_regex cli.rewrites rws hrw rw2 hmem
              · intro mp hmem
                exact parseMappings_ok_exists cli.mappings cli.sourceDir existing ms hms mp hmem
  · intro src fs pat E2 hbad
    have hsd : ∀ p : Path, p ≠ [] → shouldIncludeDir p src [pat] E2 = false := by
      intro p hp
      unfold shouldIncludeDir
      rw [if_neg hp]
      have hany : (src.any (fun e =>
          p.isPrefixOf e.1 && decide (e.1 ≠ p) && isFileInfo e.2 &&
            shouldInclude (relChars e.1) [pat] E2)) = false := by
        refine List.any_eq_false.mpr (fun e hmem => ?_)
        rw [hsi pat (relChars e.1) E2 hbad]
        simp
      rw [hsi pat (relChars p) E2 hbad, hany]
      simp
    have hrec : dirsToCreate src [pat] E2 = [] := by
      refine List.filterMap_eq_nil_iff.mpr (fun e hmem => ?_)
      obtain ⟨p, info⟩ := e
      cases info with
      | file c m => rfl
      | dir m =>
        show (if p.isEmpty then none
          else if shouldIncludeDir p src [pat] E2 then some (p, m) else none) = none
        by_cases hp : p.isEmpty
        · rw [if_pos hp]
        · rw [if_neg hp]
          have hp2 : p ≠ [] := by
            intro hc
            rw [hc] at hp
            exact hp rfl
          rw [hsd p hp2]
          simp
    have hpass : ∀ (l : Src) (fs0 : Fs),
        pass2 [] [pat] E2 false l fs0 = Except.ok fs0 := by
      intro l
      induction l with
      | nil => intro fs0; rfl
      | cons e rest ih =>
        intro fs0
        obtain ⟨p, info⟩ := e
        have hstep : pass2Step [] [pat] E2 false p info fs0 = Except.ok fs0 := by
          unfold pass2Step
          by_cases hp : p = []
          · rw [if_pos hp]
          · rw [if_neg hp]
            cases info with
            | dir dm => rfl
            | file c m =>
              show (if shouldInclude (relChars p) [pat] E2 = false then Except.ok fs0
                else if false = true then Except.ok fs0
                else match (match lookupRec [] p.dropLast with
                            | some pm => mkdirAll fs0 p.dropLast pm
                            | none => Except.ok fs0) with
                     | Except.error e => Except.error e
                     | Except.ok fsi => CopyFile fsi p c m) = Except.ok fs0
              rw [if_pos (hsi pat (relChars p) E2 hbad)]
        simp only [pass2, hstep]
        exact ih fs0
    show pass2 (dirsToCreate src [pat] E2) [pat] E2 false src fs = Except.ok fs
    rw [hrec]
    exact hpass src fs
  · intro fs glob search repl isRegex rest hbad
    show (match SearchAndReplace fs glob search repl isRegex with
      | ((false, _), fs1) => processRewrites isRegex false rest fs1
      | ((true, some e), _) => Except.error e
      | ((true, none), fs1) => processRewrites isRegex false rest fs1) =
      processRewrites isRegex false rest fs
    have hsr : SearchAndReplace fs glob search repl isRegex =
        ((false, some (SrErr.badPattern glob)), fs) := by
      unfold SearchAndReplace
      rw [hbad]
    rw [hsr]

/-- C9, counterexample to the claim as stated: a malformed include glob
pattern does not abort the run — `CopyFiles` succeeds (no error) and
silently copies nothing. -/
theorem badGlob_no_abort :
    parsePatternL "[".toList = none ∧
    CopyFiles [([], SrcInfo.dir 493), (["a.txt".toList], SrcInfo.file "x".toList 420)]
      [] ["[".toList] [] false = Except.ok [] := by decide

/-- C9 witness. -/
theorem config_validation_spec_witness :
    CopyFiles [([], SrcInfo.dir 493), (["b.txt".toList], SrcInfo.file "y".toList 420)]
      [] ["[".toList] [] false = Except.ok [] :=
  config_validation_spec.2.2.1
    [([], SrcInfo.dir 493), (["b.txt".toList], SrcInfo.file "y".toList 420)]
    [] "[".toList [] (by decide)

/-- C1 witness. -/
theorem CopyFiles_result_witness :
    Fs.lookup testDestTxt ["file1.txt".toList] = some (FsNode.file "file1".toList 420) :=
  (CopyFiles_result testSrc ["**/*.txt".toList] [] [] testDestTxt (by decide) (by decide)).1
    ["file1.txt".toList] "file1".toList 420 (by decide) (by decide)

/-- C5 witness. -/
theorem dirsToCreate_spec_witness :
    (["empty".toList], 493) ∈ dirsToCreate testSrc [] [] :=
  ((dirsToCreate_spec testSrc [] []).1 ["empty".toList] 493).mpr
    ⟨by decide, by decide, by decide⟩

/-- C10 witness. -/
theorem admission_upward_closed_witness :
    shouldIncludeDir ["subdir1".toList] testSrc ["**/*.txt".toList] [] = true ∧
    (lookupRec (dirsToCreate testSrc ["**/*.txt".toList] []) ["subdir1".toList]).isSome =
      true := by
  have h := admission_upward_closed testSrc ["**/*.txt".toList] [] [] testDestTxt
    (by decide) (by decide)
  constructor
  · exact h.1 ["subdir1".toList, "file3.txt".toList] "file3".toList 420 (by decide)
      (by decide) ["subdir1".toList] (by decide) (by decide) (by decide)
  · have h2 := h.2 ["subdir1".toList, "file3.txt".toList] "file3".toList 420
      (by decide) (by decide) (by decide)
    rcases h2 with hc | ⟨hs, _⟩
    · exact absurd hc (by decide)
    · exact hs

end ROMCopyEngine
